import Mathlib

/-!
Verification development for the SolidEventSourcing repository.

The definitions below are shallow embeddings of the TypeScript sources
`src/EventSource/src/util/Processing.ts` and
`src/EventSource/src/algorithms/Publisher.ts`:

* RDF terms and quads (the `n3` data model restricted to what the code uses);
* `extractResources`, `generateShape`, `batchResources`,
  `resourceToOptimisedTurtle` and `calculateBucket` from `Processing.ts`;
* the bucket bookkeeping of the `Publisher` base class (`append`,
  `_createBucket`) and of `SimplePublisher` (`getBucket`, `rebalance`,
  `_rebalance`).

JavaScript numbers used as millisecond timestamps or counts are modelled as
`Int`/`Nat`; JavaScript arrays as `List`; `Map` objects as association lists
in insertion order (new keys are appended at the tail, as JS `Map` iteration
order prescribes); loops that can run unboundedly (the `while` loop of
`SimplePublisher.rebalance`, the growing-list walk of `extractResources`)
take an explicit fuel argument and return `none` when the fuel runs out.
-/

namespace EventSource

/-- RDF term as used by the `n3` library: named node, blank node, literal
(with datatype) or variable.  Equality is structural, following
`Term.equals`. -/
inductive Term where
  | named (value : String)
  | blankNode (value : String)
  | literal (value : String) (datatype : String)
  | termVar (value : String)
deriving DecidableEq

/-- The `.id` string of an `n3` term; distinct kinds of term get distinct
encodings, as in `n3` (`_:` for blank nodes, quoting for literals, `?` for
variables). -/
def Term.id : Term → String
  | .named v => v
  | .blankNode v => "_:" ++ v
  | .literal v dt => "\"" ++ v ++ "\"^^" ++ dt
  | .termVar v => "?" ++ v

/-- The `.value` string of an `n3` term. -/
def Term.value : Term → String
  | .named v => v
  | .blankNode v => v
  | .literal v _ => v
  | .termVar v => v

/-- Whether the term's `termType` is `"BlankNode"`. -/
def Term.isBlank : Term → Bool
  | .blankNode _ => true
  | _ => false

/-- RDF triple/quad (the default graph component is never consulted by the
code under study). -/
structure Quad where
  subject : Term
  predicate : Term
  object : Term
deriving DecidableEq

/-- A resource is a quad array, `type Resource = Quad[]`. -/
abbrev Resource := List Quad

/-! ## Bucket bookkeeping of `SimplePublisher` (Publisher.ts)

`SimplePublisher.rebalance` refreshes `this.bucketData`, an array of
`[Date, string[]]` pairs (bucket date, member identifiers), and then walks
it with the per-pair helper `_rebalance`.  We model a bucket-data entry as a
`Nat × List String` pair (milliseconds since epoch, member list). -/

/-- Bookkeeping entry for one bucket: its date (ms since epoch) and the
identifiers of its members. -/
abbrev BucketData := Nat × List String

/-- Model of the transfer loop body of `SimplePublisher._rebalance`:
`n` times, `from[1].pop()` removes the last member and `to[1].push` appends
it to the destination.  (A pop on an empty array cannot occur at call sites:
the loop only runs when `amount > 0`, which forces `from` to hold more than
`bucketSize ≥ amount` members.) -/
def movePop : Nat → List String × List String → List String × List String
  | 0, p => p
  | n + 1, (f, t) =>
    match f.getLast? with
    | some x => movePop n (f.dropLast, t ++ [x])
    | none => movePop n (f, t)

/-- Model of `SimplePublisher._rebalance(from, to)`: computes
`amount = Math.min(from[1].length - bucketSize, to[1].length - bucketSize)`,
moves `amount` members (no iterations when `amount ≤ 0`) and returns the
updated member lists together with the raw `amount` value — which the
TypeScript returns even when it is negative. -/
def _rebalance (bucketSize : Nat) (f t : List String) :
    List String × List String × Int :=
  let amount : Int :=
    min ((f.length : Int) - (bucketSize : Int)) ((t.length : Int) - (bucketSize : Int))
  let moved := movePop amount.toNat (f, t)
  (moved.1, moved.2, amount)

/-- One `_rebalance` call between the bucket-data entries at positions `i`
and `j` of the state, writing the mutated member arrays back (in the
TypeScript the arrays are mutated through the references held by
`bucketData`; all call sites have `i ≠ j`). -/
def applyRebalance (c : Nat) (state : List BucketData) (i j : Nat) :
    List BucketData × Int :=
  let fb := state.getD i (0, [])
  let tb := state.getD j (0, [])
  let r := _rebalance c fb.2 tb.2
  ((state.set i (fb.1, r.1)).set j (tb.1, r.2.1), r.2.2)

/-- Model of the `while (remaining > 0)` loop inside
`SimplePublisher.rebalance`: each iteration pushes a fresh empty bucket
(`new Date()`, modelled by the parameter `newDate`) onto `bucketData` and
calls `_rebalance` from bucket `i` into it.  Fuel-indexed; `none` means the
loop was still running when the fuel ran out. -/
def rebalanceWhile (c newDate i : Nat) :
    Nat → List BucketData → Int → Option (List BucketData)
  | 0, state, remaining => if remaining ≤ 0 then some state else none
  | fuel + 1, state, remaining =>
    if remaining ≤ 0 then some state
    else
      let state' := state ++ [(newDate, [])]
      let r := applyRebalance c state' i (state'.length - 1)
      rebalanceWhile c newDate i fuel r.1 (remaining - r.2)

/-- The two neighbour transfers of one iteration of the `for` loop in
`SimplePublisher.rebalance`: first into the previous bucket (when `i > 0`),
then into the next one (when `i < n - 1`, where `n` is `this.buckets.length`,
the number of buckets known before the loop started).  Returns the updated
state and the updated `remaining` value. -/
def neighborMoves (c n i : Nat) (state : List BucketData) (remaining0 : Int) :
    List BucketData × Int :=
  let p1 :=
    if 0 < i then
      let r := applyRebalance c state i (i - 1)
      (r.1, remaining0 - r.2)
    else (state, remaining0)
  if i < n - 1 then
    let r := applyRebalance c p1.1 i (i + 1)
    (r.1, p1.2 - r.2)
  else p1

/-- Model of the `for (const [i, [bucket, members]] of this.bucketData.entries())`
loop of `SimplePublisher.rebalance`.  The iterator is live: the index runs
while `i < state.length` for the current state.  Each iteration computes
`remaining = members.length - bucketSize`, applies the neighbour transfers
and then the while loop.  Fuel-indexed (one unit per loop iteration). -/
def rebalanceLoop (c n newDate : Nat) :
    Nat → Nat → List BucketData → Option (List BucketData)
  | 0, _, _ => none
  | fuel + 1, i, state =>
    if h : i < state.length then
      let members := (state.get ⟨i, h⟩).2
      if 0 < (members.length : Int) - (c : Int) then
        let p := neighborMoves c n i state ((members.length : Int) - (c : Int))
        match rebalanceWhile c newDate i fuel p.1 p.2 with
        | none => none
        | some st => rebalanceLoop c n newDate fuel (i + 1) st
      else rebalanceLoop c n newDate fuel (i + 1) state
    else some state

/-- Model of one `SimplePublisher.rebalance()` call on a bucket-data state
(the state the method itself builds from `this.buckets` and `getMembers`).
`n` is `this.buckets.length`, i.e. the length of the initial state. -/
def rebalance (c newDate fuel : Nat) (state : List BucketData) :
    Option (List BucketData) :=
  rebalanceLoop c state.length newDate fuel 0 state

/-- A sequence of `rebalance` calls (each with its own fuel), chained on the
bucket-data state. -/
def rebalanceCalls (c newDate : Nat) (fuels : List Nat) (state : List BucketData) :
    Option (List BucketData) :=
  fuels.foldlM (fun st f => rebalance c newDate f st) state

/-- Total number of member records across all buckets. -/
def totalMembers (state : List BucketData) : Nat :=
  (state.map (fun b => b.2.length)).sum

/-! ## Bucket-list maintenance of `Publisher.append` (Processing.ts)

`Publisher.append(resource, bucket)` checks `this._buckets.includes(bucket)`;
for an unknown bucket it calls `this._createBucket(bucket)` — which already
does `this._buckets.push(date)` — then pushes the same date again and sorts.
We model dates as natural numbers and give the code the benefit of a
numerically correct sort (`Array.prototype.sort` without a comparator
actually sorts `Date` objects by their string representation). -/

/-- Effect of `Publisher.append` on the `_buckets` array when appending a
resource destined for `bucket`. -/
def appendBucketList (buckets : List Nat) (bucket : Nat) : List Nat :=
  if bucket ∈ buckets then buckets
  else List.insertionSort (· ≤ ·) ((buckets ++ [bucket]) ++ [bucket])

/-- Strictly increasing boundary list. -/
def strictlyIncreasing (l : List Nat) : Prop := List.Chain' (· < ·) l

/-! ## Lemmas about the rebalance model -/

/-- The `amount` returned by `_rebalance` never exceeds the overflow of the
source bucket. -/
lemma _rebalance_amount_le (c : Nat) (f t : List String) :
    (_rebalance c f t).2.2 ≤ (f.length : Int) - (c : Int) := by
  simp [_rebalance]

/-- The `amount` returned by `_rebalance` never exceeds the overflow of the
receiving bucket (note: its overflow, not its spare capacity). -/
lemma _rebalance_amount_le_to (c : Nat) (f t : List String) :
    (_rebalance c f t).2.2 ≤ (t.length : Int) - (c : Int) := by
  simp [_rebalance]

/-- `movePop` conserves the total number of members. -/
lemma movePop_length (n : Nat) :
    ∀ p : List String × List String,
      (movePop n p).1.length + (movePop n p).2.length = p.1.length + p.2.length := by
  induction n with
  | zero => intro p; rfl
  | succ n ih =>
    intro ⟨f, t⟩
    match hL : f.getLast? with
    | none => simpa [movePop, hL] using ih (f, t)
    | some x =>
      have hf : f ≠ [] := by
        intro h; subst h; simp at hL
      have hlen : 0 < f.length := List.length_pos.mpr hf
      have := ih (f.dropLast, t ++ [x])
      simp only [movePop, hL]
      rw [this]
      simp [List.length_dropLast]
      omega

/-- `_rebalance` conserves the total number of members. -/
lemma _rebalance_length (c : Nat) (f t : List String) :
    (_rebalance c f t).1.length + (_rebalance c f t).2.1.length
      = f.length + t.length := by
  simpa [_rebalance] using movePop_length _ (f, t)

/-- Summation after updating one entry of the state. -/
lemma totalMembers_set (state : List BucketData) :
    ∀ (i : Nat), i < state.length → ∀ v : BucketData,
      totalMembers (state.set i v) + (state.getD i (0, [])).2.length
        = totalMembers state + v.2.length := by
  induction state with
  | nil => intro i hi; simp at hi
  | cons b rest ih =>
    intro i hi v
    match i with
    | 0 => simp [totalMembers]; omega
    | i + 1 =>
      have hi' : i < rest.length := by simpa using hi
      have := ih i hi' v
      simp only [totalMembers, List.set_cons_succ, List.map_cons, List.sum_cons,
        List.getD_cons_succ] at *
      omega

/-- `List.set` with an out-of-range index is the identity. -/
lemma totalMembers_set_oob (state : List BucketData) (i : Nat)
    (hi : ¬ i < state.length) (v : BucketData) :
    totalMembers (state.set i v) = totalMembers state := by
  rw [List.set_eq_of_length_le (by omega)]

/-- `applyRebalance` between two distinct valid positions conserves the
total member count and the state length. -/
lemma applyRebalance_total (c : Nat) (state : List BucketData) (i j : Nat)
    (hij : i ≠ j) (hi : i < state.length) (hj : j < state.length) :
    totalMembers (applyRebalance c state i j).1 = totalMembers state ∧
    (applyRebalance c state i j).1.length = state.length := by
  unfold applyRebalance
  constructor
  · have hset1 := totalMembers_set state i hi ((state.getD i (0, [])).1, (_rebalance c (state.getD i (0, [])).2 (state.getD j (0, [])).2).1)
    have hj1 : j < (state.set i ((state.getD i (0, [])).1, (_rebalance c (state.getD i (0, [])).2 (state.getD j (0, [])).2).1)).length := by
      simpa using hj
    have hset2 := totalMembers_set _ j hj1 ((state.getD j (0, [])).1, (_rebalance c (state.getD i (0, [])).2 (state.getD j (0, [])).2).2.1)
    have hgd : (state.set i ((state.getD i (0, [])).1, (_rebalance c (state.getD i (0, [])).2 (state.getD j (0, [])).2).1)).getD j (0, []) = state.getD j (0, []) := by
      simp only [List.getD_eq_getElem?_getD]
      rw [List.getElem?_set_ne (by omega)]
    rw [hgd] at hset2
    have hcons := _rebalance_length c (state.getD i (0, [])).2 (state.getD j (0, [])).2
    simp only at hset1 hset2 ⊢
    omega
  · simp

/-- `applyRebalance` never changes the state length. -/
lemma applyRebalance_length (c : Nat) (state : List BucketData) (i j : Nat) :
    (applyRebalance c state i j).1.length = state.length := by
  simp [applyRebalance]

/-- The `while` loop of `SimplePublisher.rebalance` never terminates once it
is entered with a positive `remaining`: the freshly created bucket is empty,
so `_rebalance` computes `amount = min(from - c, 0 - c) ≤ 0`, moves nothing
and `remaining -= amount` cannot decrease. -/
lemma rebalanceWhile_pos (c newDate i : Nat) :
    ∀ (fuel : Nat) (state : List BucketData) (remaining : Int),
      0 < remaining →
      rebalanceWhile c newDate i fuel state remaining = none := by
  intro fuel
  induction fuel with
  | zero =>
    intro state r hr
    simp only [rebalanceWhile]
    rw [if_neg (show ¬ r ≤ 0 by omega)]
  | succ n ih =>
    intro state r hr
    simp only [rebalanceWhile]
    rw [if_neg (show ¬ r ≤ 0 by omega)]
    apply ih
    have hlast : (state ++ [((newDate : Nat), ([] : List String))]).getD
        ((state ++ [((newDate : Nat), ([] : List String))]).length - 1) (0, [])
        = (newDate, []) := by
      simp only [List.getD_eq_getElem?_getD, List.length_append, List.length_singleton]
      have : state.length + 1 - 1 = state.length := by omega
      rw [this, List.getElem?_concat_length]
      rfl
    set st' := state ++ [((newDate : Nat), ([] : List String))] with hst
    have hamt : (applyRebalance c st' i (st'.length - 1)).2 ≤ 0 := by
      unfold applyRebalance
      simp only [hlast]
      have := _rebalance_amount_le_to c (st'.getD i (0, [])).2 ([] : List String)
      simp only [List.length_nil] at this
      omega
    omega

/-- If the while loop returns a state, `remaining` was already `≤ 0` and the
state is unchanged. -/
lemma rebalanceWhile_some (c newDate i fuel : Nat) (state s' : List BucketData)
    (r : Int) (h : rebalanceWhile c newDate i fuel state r = some s') :
    r ≤ 0 ∧ s' = state := by
  by_cases hr : r ≤ 0
  · refine ⟨hr, ?_⟩
    cases fuel with
    | zero => simp only [rebalanceWhile, if_pos hr, Option.some.injEq] at h; exact h.symm
    | succ n => simp only [rebalanceWhile, if_pos hr, Option.some.injEq] at h; exact h.symm
  · rw [rebalanceWhile_pos c newDate i fuel state r (by omega)] at h
    exact absurd h (by simp)

/-- The neighbour transfers conserve the total member count and the state
length. -/
lemma neighborMoves_total (c n i : Nat) (state : List BucketData) (r0 : Int)
    (hi : i < state.length) (hn : n ≤ state.length) :
    totalMembers (neighborMoves c n i state r0).1 = totalMembers state ∧
    (neighborMoves c n i state r0).1.length = state.length := by
  unfold neighborMoves
  by_cases h1 : 0 < i
  · have ha := applyRebalance_total c state i (i - 1) (by omega) hi (by omega)
    by_cases h2 : i < n - 1
    · have hi2 : i < (applyRebalance c state i (i - 1)).1.length := by
        rw [applyRebalance_length]; exact hi
      have hj2 : i + 1 < (applyRebalance c state i (i - 1)).1.length := by
        rw [applyRebalance_length]; omega
      have hb := applyRebalance_total c (applyRebalance c state i (i - 1)).1
        i (i + 1) (by omega) hi2 hj2
      simp only [if_pos h1, if_pos h2]
      refine ⟨?_, ?_⟩
      · rw [hb.1, ha.1]
      · rw [hb.2, ha.2]
    · simp only [if_pos h1, if_neg h2]
      exact ⟨ha.1, ha.2⟩
  · by_cases h2 : i < n - 1
    · have hb := applyRebalance_total c state i (i + 1) (by omega) hi (by omega)
      simp only [if_neg h1, if_pos h2]
      exact ⟨hb.1, hb.2⟩
    · simp [if_neg h1, if_neg h2]

/-- Every terminating run of the `rebalance` loop conserves the total
member count. -/
lemma rebalanceLoop_total (c n newDate : Nat) :
    ∀ (fuel i : Nat) (state s' : List BucketData), n ≤ state.length →
      rebalanceLoop c n newDate fuel i state = some s' →
      totalMembers s' = totalMembers state := by
  intro fuel
  induction fuel with
  | zero =>
    intro i state s' hn h
    exact absurd h (by simp [rebalanceLoop])
  | succ fl ih =>
    intro i state s' hn h
    rw [rebalanceLoop] at h
    by_cases hlt : i < state.length
    · rw [dif_pos hlt] at h
      by_cases hpos : 0 < (((state.get ⟨i, hlt⟩).2.length : Int) - (c : Int))
      · rw [if_pos hpos] at h
        simp only at h
        cases hw : rebalanceWhile c newDate i fl
            (neighborMoves c n i state (((state.get ⟨i, hlt⟩).2.length : Int) - (c : Int))).1
            (neighborMoves c n i state (((state.get ⟨i, hlt⟩).2.length : Int) - (c : Int))).2 with
        | none => rw [hw] at h; exact absurd h (by simp)
        | some st =>
          rw [hw] at h
          obtain ⟨-, hst⟩ := rebalanceWhile_some _ _ _ _ _ _ _ hw
          subst hst
          have hnm := neighborMoves_total c n i state
            (((state.get ⟨i, hlt⟩).2.length : Int) - (c : Int)) hlt hn
          have hrec := ih (i + 1) _ s' (by rw [hnm.2]; exact hn) h
          rw [hrec, hnm.1]
      · rw [if_neg hpos] at h
        exact ih (i + 1) state s' hn h
    · rw [dif_neg hlt] at h
      cases h
      rfl


/-! ## Claim theorems: rebalancing (C1, C2, C5) and boundaries (C3) -/

/-- C1: the claim states that each rebalance transfer is bounded by the
receiving bucket's spare capacity (`targetCapacity - itsMembership`, never
negative) and that a negative computed transfer amount is fatal and never
returned.  The code computes the bound as the receiver's *excess*
(`to[1].length - bucketSize`): with capacity 2, a source of 3 members and a
receiver of 1 member, `_rebalance` computes `amount = -1` and returns it as
its result (first conjunct); with a receiver of 4 members (spare capacity
0) it moves one resource into the already-overflowing receiver, which then
holds 5 (second and third conjuncts). -/
theorem c1_rebalance_transfer_amounts :
    (_rebalance 2 ["a", "b", "c"] ["x"]).2.2 = -1 ∧
    (_rebalance 2 ["a", "b", "c"] ["w", "x", "y", "z"]).2.2 = 1 ∧
    (_rebalance 2 ["a", "b", "c"] ["w", "x", "y", "z"]).2.1.length = 5 := by
  decide

/-- C2: every terminating sequence of `rebalance` calls conserves the total
number of member records across all buckets. -/
theorem c2_rebalance_conserves_total (c newDate : Nat) (fuels : List Nat)
    (state s' : List BucketData)
    (h : rebalanceCalls c newDate fuels state = some s') :
    totalMembers s' = totalMembers state := by
  induction fuels generalizing state with
  | nil =>
    simp only [rebalanceCalls, List.foldlM_nil, Option.pure_def, Option.some.injEq] at h
    rw [h]
  | cons f rest ih =>
    simp only [rebalanceCalls, List.foldlM_cons, Option.bind_eq_bind,
      Option.bind_eq_some] at h
    obtain ⟨st, hst, hrest⟩ := h
    have h1 : totalMembers st = totalMembers state :=
      rebalanceLoop_total c state.length newDate f 0 state st (le_refl _) hst
    have h2 := ih st hrest
    rw [h2, h1]

/-- Witness for C2 at a concrete input: one bucket with one member, capacity
1, two rebalance calls with fuel 2 each. -/
theorem c2_rebalance_conserves_total_witness :
    rebalanceCalls 1 999 [2, 2] [(0, ["a"])] = some [(0, ["a"])] ∧
    totalMembers [(0, ["a"])] = totalMembers [(0, ["a"])] :=
  ⟨by decide, c2_rebalance_conserves_total 1 999 [2, 2] [(0, ["a"])] [(0, ["a"])] (by decide)⟩

/-- C3: the claim states that bucket boundaries are strictly increasing
after every assign.  `Publisher.append` on a new bucket calls
`_createBucket` (which already pushes the date) and then pushes the same
date again before sorting, so a single assign that creates a bucket leaves
a duplicated boundary: from `[0]`, appending bucket `1` yields `[0, 1, 1]`,
which is not strictly increasing. -/
theorem c3_append_duplicates_boundary :
    appendBucketList [0] 1 = [0, 1, 1] ∧ ¬ strictlyIncreasing [0, 1, 1] := by
  constructor
  · decide
  · unfold strictlyIncreasing
    simp [List.chain'_cons]

/-- Initial bucket state of the C5 scenario: boundaries 100 < 200 < 300
holding 1, 3 and 1 members. -/
def c5state : List BucketData := [(100, ["a"]), (200, ["b", "c", "d"]), (300, ["e"])]

/-- C5: the claim states that `rebalance(2)` on memberships 1, 3, 1
terminates with memberships 2, 2, 1.  In the code both neighbour transfers
compute `amount = min(3-2, 1-2) = -1`, so nothing moves and
`remaining` grows to 3; the `while` loop then creates fresh empty buckets
forever (each iteration computes `amount = min(from-2, 0-2) ≤ -2`).  The
model therefore returns `none` (non-termination) for every fuel. -/
theorem c5_rebalance_1_3_1_diverges (newDate fuel : Nat) :
    rebalance 2 newDate fuel c5state = none := by
  match fuel with
  | 0 => rfl
  | 1 => rfl
  | (fl + 2) =>
    show rebalanceLoop 2 3 newDate (fl + 2) 0 c5state = none
    rw [rebalanceLoop]
    rw [dif_pos (show 0 < c5state.length by decide)]
    rw [if_neg (show ¬ (0:Int) < ((((c5state.get ⟨0, by decide⟩).2.length : Nat) : Int) - ((2:Nat) : Int)) by decide)]
    rw [rebalanceLoop]
    rw [dif_pos (show 1 < c5state.length by decide)]
    rw [if_pos (show (0:Int) < ((((c5state.get ⟨1, by decide⟩).2.length : Nat) : Int) - ((2:Nat) : Int)) by decide)]
    have hnm : neighborMoves 2 3 1 c5state
        ((((c5state.get ⟨1, by decide⟩).2.length : Nat) : Int) - ((2:Nat) : Int)) = (c5state, 3) := by
      decide
    rw [hnm]
    simp only
    rw [rebalanceWhile_pos 2 newDate 1 fl c5state 3 (by omega)]

/-! ## Bucket selection (C4): `SimplePublisher.getBucket` and `calculateBucket`

`SimplePublisher.getBucket` scans the sorted `this.buckets` with `findIndex`
for the first bucket date exceeding the resource date: index 0 means the
sample predates every bucket (an `Error` is thrown), -1 means every bucket
is older (the last bucket is used), otherwise the bucket just before the
found index is used.  `calculateBucket` in `Processing.ts` scans the
relations linearly, keeping the largest relation timestamp that does not
exceed the resource timestamp — starting from `timestampJustSmaller = 0`
and `correspondingUrl = "none"`. -/

/-- Model of `SimplePublisher.getBucket`.  Bucket dates are modelled by
their `getTime()` values.  `Except.error` models the thrown `Error`;
`Except.ok none` models the out-of-range access `buckets[-1]` (undefined)
on an empty bucket list. -/
def getBucket (buckets : List Int) (resourceDate : Int) : Except String (Option Int) :=
  match buckets.findIdx? (fun b => resourceDate < b) with
  | some 0 => Except.error "Invalid sample received: samples older than the oldest initial bucket are not supported."
  | some (k + 1) => Except.ok buckets[k]?
  | none => Except.ok buckets.getLast?

/-- Model of `calculateBucket(resource, metadata)` after the relation values
have been parsed to timestamps: the relations are (timestamp, node url)
pairs and the resource contributes its timestamp. -/
def calculateBucket (relations : List (Int × String)) (resourceTs : Int) : String :=
  (relations.foldl
    (fun acc rel => if rel.1 ≤ resourceTs ∧ acc.1 < rel.1 then rel else acc)
    ((0 : Int), "none")).2

/-- In a strictly sorted list, every element is at most the last one. -/
lemma sorted_le_getLast (l : List Int) (hs : List.Pairwise (· < ·) l)
    (x : Int) (hx : x ∈ l) (h : l ≠ []) : x ≤ l.getLast h := by
  rw [List.pairwise_iff_getElem] at hs
  obtain ⟨i, hi, rfl⟩ := List.mem_iff_getElem.mp hx
  rw [List.getLast_eq_getElem]
  rcases Nat.lt_or_ge i (l.length - 1) with hlt | hge
  · exact le_of_lt (hs i (l.length - 1) hi (by omega) hlt)
  · have : i = l.length - 1 := by omega
    subst this
    exact le_refl _

/-- In a strictly sorted list, values are monotone in the index. -/
lemma sorted_getElem_le (l : List Int) (hs : List.Pairwise (· < ·) l)
    (i j : Nat) (hij : i ≤ j) (hj : j < l.length) :
    l.get ⟨i, by omega⟩ ≤ l.get ⟨j, hj⟩ := by
  rw [List.pairwise_iff_getElem] at hs
  rcases Nat.lt_or_ge i j with hlt | hge
  · simpa using le_of_lt (hs i j (by omega) hj hlt)
  · have : i = j := by omega
    subst this
    exact le_refl _

/-- The scanning fold of `calculateBucket` leaves the accumulator unchanged
when every remaining relation is in the future of the resource. -/
lemma calcFold_const (ts : Int) :
    ∀ (rels : List (Int × String)) (acc : Int × String),
      (∀ r ∈ rels, ts < r.1) →
      rels.foldl (fun acc rel => if rel.1 ≤ ts ∧ acc.1 < rel.1 then rel else acc) acc = acc := by
  intro rels
  induction rels with
  | nil => intro acc _; rfl
  | cons r rest ih =>
    intro acc hall
    have hr : ts < r.1 := hall r (by simp)
    simp only [List.foldl_cons, if_neg (by omega : ¬ (r.1 ≤ ts ∧ acc.1 < r.1))]
    exact ih acc (fun x hx => hall x (by simp [hx]))

/-- The scanning fold either keeps the accumulator or returns one of the
relations, eligible and strictly improving on the accumulator. -/
lemma calcFold_mem (ts : Int) :
    ∀ (rels : List (Int × String)) (acc : Int × String),
      rels.foldl (fun acc rel => if rel.1 ≤ ts ∧ acc.1 < rel.1 then rel else acc) acc = acc ∨
      ∃ r ∈ rels,
        rels.foldl (fun acc rel => if rel.1 ≤ ts ∧ acc.1 < rel.1 then rel else acc) acc = r ∧
        r.1 ≤ ts ∧ acc.1 < r.1 := by
  intro rels
  induction rels with
  | nil => intro acc; left; rfl
  | cons r rest ih =>
    intro acc
    by_cases hc : r.1 ≤ ts ∧ acc.1 < r.1
    · simp only [List.foldl_cons, if_pos hc]
      rcases ih r with heq | ⟨r', hr', heq, hle, hlt⟩
      · right; exact ⟨r, by simp, heq, hc⟩
      · right; exact ⟨r', by simp [hr'], heq, hle, by omega⟩
    · simp only [List.foldl_cons, if_neg hc]
      rcases ih acc with heq | ⟨r', hr', heq, hle, hlt⟩
      · left; exact heq
      · right; exact ⟨r', by simp [hr'], heq, hle, hlt⟩

/-- The scanning fold result dominates the accumulator and every eligible
relation timestamp. -/
lemma calcFold_max (ts : Int) :
    ∀ (rels : List (Int × String)) (acc : Int × String),
      acc.1 ≤ (rels.foldl (fun acc rel => if rel.1 ≤ ts ∧ acc.1 < rel.1 then rel else acc) acc).1 ∧
      ∀ x ∈ rels, x.1 ≤ ts →
        x.1 ≤ (rels.foldl (fun acc rel => if rel.1 ≤ ts ∧ acc.1 < rel.1 then rel else acc) acc).1 := by
  intro rels
  induction rels with
  | nil => intro acc; exact ⟨le_refl _, by simp⟩
  | cons r rest ih =>
    intro acc
    by_cases hc : r.1 ≤ ts ∧ acc.1 < r.1
    · simp only [List.foldl_cons, if_pos hc]
      obtain ⟨h1, h2⟩ := ih r
      refine ⟨by omega, ?_⟩
      intro x hx hxle
      rcases List.mem_cons.mp hx with rfl | hx'
      · exact h1
      · exact h2 x hx' hxle
    · simp only [List.foldl_cons, if_neg hc]
      obtain ⟨h1, h2⟩ := ih acc
      refine ⟨h1, ?_⟩
      intro x hx hxle
      rcases List.mem_cons.mp hx with rfl | hx'
      · omega
      · exact h2 x hx' hxle

/-- C4 counterexample: a single bucket whose boundary timestamp is 0 (the
epoch) does not exceed the resource timestamp 5, so the claim requires it
to be selected; `calculateBucket` nevertheless answers "none" (the value
the claim reserves for a timestamp preceding every boundary), because its
best-so-far timestamp starts at 0 and is only replaced by strictly larger
values. -/
theorem c4_calculateBucket_epoch_counterexample :
    calculateBucket [((0 : Int), "b0")] 5 = "none" ∧
    ((0 : Int) ≤ 5 ∧ "none" ≠ "b0") := by
  refine ⟨by decide, by decide, by decide⟩

/-- C4 (amended): provided every relation timestamp is positive (strictly
after the epoch — the linear scan of `calculateBucket` initialises its
best-so-far timestamp to 0, so boundaries at or before the epoch are never
selected), both bucket-selection routines behave as claimed: `getBucket`
on a non-empty strictly sorted bucket list fails when the resource
timestamp precedes every boundary, otherwise returns the greatest boundary
not exceeding the timestamp, and returns the newest bucket when the
timestamp exceeds every boundary; `calculateBucket` answers "none" when the
resource timestamp precedes every relation timestamp and otherwise the node
of an eligible relation with the greatest timestamp not exceeding the
resource timestamp. -/
theorem c4_bucket_selection (buckets : List Int) (ts : Int)
    (hne : buckets ≠ []) (hsorted : List.Pairwise (· < ·) buckets)
    (relations : List (Int × String)) (hpos : ∀ r ∈ relations, 0 < r.1) :
    ((∀ b ∈ buckets, ts < b) → ∃ e, getBucket buckets ts = Except.error e) ∧
    ((∃ b0 ∈ buckets, b0 ≤ ts) → ∃ b, getBucket buckets ts = Except.ok (some b) ∧
        b ∈ buckets ∧ b ≤ ts ∧ ∀ x ∈ buckets, x ≤ ts → x ≤ b) ∧
    ((∀ b ∈ buckets, b ≤ ts) →
        getBucket buckets ts = Except.ok (some (buckets.getLast hne))) ∧
    ((∀ r ∈ relations, ts < r.1) → calculateBucket relations ts = "none") ∧
    ((∃ r0 ∈ relations, r0.1 ≤ ts) → ∃ r ∈ relations,
        calculateBucket relations ts = r.2 ∧ r.1 ≤ ts ∧
        ∀ x ∈ relations, x.1 ≤ ts → x.1 ≤ r.1) := by
  refine ⟨?_, ?_, ?_, ?_, ?_⟩
  · -- timestamp precedes every boundary: the findIndex hits index 0
    intro hall
    match hb : buckets with
    | [] => exact absurd rfl hne
    | a :: l =>
      have ha : ts < a := hall a (by simp)
      unfold getBucket
      rw [List.findIdx?_cons, if_pos (by simpa using ha)]
      exact ⟨_, rfl⟩
  · -- some boundary does not exceed the timestamp: greatest one selected
    intro ⟨b0, hb0, hb0le⟩
    unfold getBucket
    match hidx : buckets.findIdx? (fun b => ts < b) with
    | none =>
      have hall : ∀ x ∈ buckets, x ≤ ts := by
        intro x hx
        have := List.findIdx?_eq_none_iff.mp hidx x hx
        simpa using this
      refine ⟨buckets.getLast hne, ?_, List.getLast_mem hne,
        hall _ (List.getLast_mem hne), fun x hx _ => sorted_le_getLast buckets hsorted x hx hne⟩
      rw [List.getLast?_eq_getLast _ hne]
    | some 0 =>
      exfalso
      obtain ⟨h0, hp0, -⟩ := List.findIdx?_eq_some_iff_getElem.mp hidx
      have hts0 : ts < buckets.get ⟨0, h0⟩ := by simpa using hp0
      obtain ⟨i, hi, rfl⟩ := List.mem_iff_getElem.mp hb0
      have := sorted_getElem_le buckets hsorted 0 i (by omega) hi
      simp only [List.get_eq_getElem] at this hts0
      omega
    | some (k + 1) =>
      obtain ⟨hk1, hpk1, hbelow⟩ := List.findIdx?_eq_some_iff_getElem.mp hidx
      have hk : k < buckets.length := by omega
      refine ⟨buckets.get ⟨k, hk⟩, ?_, List.get_mem _ _ _, ?_, ?_⟩
      · show Except.ok buckets[k]? = Except.ok (some (buckets.get ⟨k, hk⟩))
        rw [List.getElem?_eq_getElem hk]
        simp [List.get_eq_getElem]
      · have := hbelow k (by omega)
        simpa using this
      · intro x hx hxle
        obtain ⟨i, hi, rfl⟩ := List.mem_iff_getElem.mp hx
        rcases Nat.lt_or_ge i (k + 1) with hik | hik
        · have := sorted_getElem_le buckets hsorted i k (by omega) hk
          simpa using this
        · exfalso
          have hts : ts < buckets.get ⟨k + 1, hk1⟩ := by simpa using hpk1
          have := sorted_getElem_le buckets hsorted (k + 1) i (by omega) hi
          simp only [List.get_eq_getElem] at this hts
          omega
  · -- the timestamp exceeds (or meets) every boundary: newest bucket
    intro hall
    unfold getBucket
    have hidx : buckets.findIdx? (fun b => ts < b) = none := by
      rw [List.findIdx?_eq_none_iff]
      intro x hx
      simpa using not_lt.mpr (hall x hx)
    rw [hidx, List.getLast?_eq_getLast _ hne]
  · -- calculateBucket: all relations in the future
    intro hall
    unfold calculateBucket
    rw [calcFold_const ts relations ((0 : Int), "none") hall]
  · -- calculateBucket: an eligible relation exists
    intro ⟨r0, hr0, hr0le⟩
    rcases calcFold_mem ts relations ((0 : Int), "none") with heq | ⟨r, hr, heq, hle, -⟩
    · exfalso
      have hmax := (calcFold_max ts relations ((0 : Int), "none")).2 r0 hr0 hr0le
      rw [heq] at hmax
      have := hpos r0 hr0
      simp only at hmax
      omega
    · refine ⟨r, hr, ?_, hle, ?_⟩
      · unfold calculateBucket
        rw [heq]
      · intro x hx hxle
        have hmax := (calcFold_max ts relations ((0 : Int), "none")).2 x hx hxle
        rw [heq] at hmax
        exact hmax

/-- Witness for C4 at concrete inputs: buckets 10 < 20, resource timestamp
25, relations (10, a) and (20, b). -/
theorem c4_bucket_selection_witness :
    (([10, 20] : List Int) ≠ [] ∧ List.Pairwise (· < ·) ([10, 20] : List Int) ∧
      (∀ r ∈ [((10 : Int), "a"), ((20 : Int), "b")], 0 < r.1)) ∧
    ((∃ b0 ∈ ([10, 20] : List Int), b0 ≤ 25) → ∃ b, getBucket [10, 20] 25 = Except.ok (some b) ∧
        b ∈ ([10, 20] : List Int) ∧ b ≤ 25 ∧ ∀ x ∈ ([10, 20] : List Int), x ≤ 25 → x ≤ b) :=
  ⟨⟨by decide, by decide, by decide⟩,
    (c4_bucket_selection [10, 20] 25 (by decide) (by decide)
      [((10 : Int), "a"), ((20 : Int), "b")] (by decide)).2.1⟩

/-! ## `batchResources` (C10)

`batchResources(source, count)` returns the original collection for
`count < 1`; otherwise it allocates `floor(source.length / count) + 1`
empty groups, pushes the quads of resource `i` into group
`floor(i / count)`, and finally drops the last group if it received no
quads. -/

/-- Model of `batchResources`.  Group `j` receives, in order, the quads of
exactly those resources whose index `i` satisfies `i / count = j` (that is
the effect of `resources[Math.floor(i / count)].push(...resource)` over the
`source.entries()` iteration). -/
def batchResources (source : List Resource) (count : Int) : List Resource :=
  if count < 1 then source
  else
    let c := count.toNat
    let groups := (List.range (source.length / c + 1)).map
      (fun j => (((source.enum).filter (fun p => p.1 / c = j)).map Prod.snd).flatten)
    if groups.getLast? = some [] then groups.dropLast else groups

/-- `enumFrom` distributes over append. -/
lemma enumFrom_append_eq (l₁ l₂ : List α) :
    ∀ n : Nat, (l₁ ++ l₂).enumFrom n
      = l₁.enumFrom n ++ l₂.enumFrom (n + l₁.length) := by
  induction l₁ with
  | nil => intro n; simp
  | cons a l ih =>
    intro n
    simp only [List.cons_append, List.enumFrom_cons, ih (n + 1), List.length_cons]
    have hidx : n + 1 + l.length = n + (l.length + 1) := by omega
    rw [hidx]

/-- Indices produced by `enumFrom` lie in the expected range. -/
lemma enumFrom_fst_bounds (p : Nat × α) :
    ∀ (l : List α) (n : Nat), p ∈ l.enumFrom n → n ≤ p.1 ∧ p.1 < n + l.length := by
  intro l
  induction l with
  | nil => intro n h; simp at h
  | cons a rest ih =>
    intro n h
    rw [List.enumFrom_cons, List.mem_cons] at h
    rcases h with rfl | h
    · simp only [List.length_cons]
      omega
    · have := ih (n + 1) h
      simp only [List.length_cons]
      omega

/-- Core chunking identity: concatenating, over `j = m, …, m + n - 1`, the
sublists of `enumFrom (m * c) l` whose index divides to `j` restores the
whole enumerated list, provided `l` fits in `n` chunks of size `c`. -/
lemma enumFrom_div_chunks (c : Nat) (hc : 0 < c) :
    ∀ (n m : Nat) (l : List α), l.length ≤ n * c →
      ((List.range' m n).map
        (fun j => (l.enumFrom (m * c)).filter (fun p => p.1 / c = j))).flatten
      = l.enumFrom (m * c) := by
  intro n
  induction n with
  | zero =>
    intro m l hl
    have : l = [] := List.length_eq_zero.mp (by omega)
    subst this
    simp
  | succ n ih =>
    intro m l hl
    rw [List.range'_succ]
    simp only [List.map_cons, List.flatten_cons]
    rcases le_or_lt l.length c with hcase | hcase
    · -- the whole list fits in the first chunk
      have hfirst : (l.enumFrom (m * c)).filter (fun p => p.1 / c = m) = l.enumFrom (m * c) := by
        rw [List.filter_eq_self]
        intro p hp
        have hb := enumFrom_fst_bounds p l (m * c) hp
        have : p.1 / c = m := Nat.div_eq_of_lt_le (by omega) (by
          have : (m + 1) * c = m * c + c := by ring
          omega)
        simpa using this
      have hrest : ∀ j ∈ List.range' (m + 1) n,
          (l.enumFrom (m * c)).filter (fun p => p.1 / c = j) = [] := by
        intro j hj
        have hjm : m + 1 ≤ j := (List.mem_range'_1.mp hj).1
        rw [List.filter_eq_nil_iff]
        intro p hp
        have hb := enumFrom_fst_bounds p l (m * c) hp
        have : p.1 / c = m := Nat.div_eq_of_lt_le (by omega) (by
          have : (m + 1) * c = m * c + c := by ring
          omega)
        simp only [decide_eq_true_eq]
        omega
      rw [hfirst]
      have : ((List.range' (m + 1) n).map
          (fun j => (l.enumFrom (m * c)).filter (fun p => p.1 / c = j))).flatten = [] := by
        rw [List.flatten_eq_nil_iff]
        intro x hx
        obtain ⟨j, hj, rfl⟩ := List.mem_map.mp hx
        exact hrest j hj
      rw [this, List.append_nil]
    · -- the first chunk takes `c` elements, recurse on the rest
      have hsplit : l.enumFrom (m * c)
          = (l.take c).enumFrom (m * c) ++ (l.drop c).enumFrom (m * c + c) := by
        have := enumFrom_append_eq (l.take c) (l.drop c) (m * c)
        rw [List.take_append_drop] at this
        rw [this, List.length_take]
        congr 2
        omega
      have htake_bounds : ∀ p ∈ (l.take c).enumFrom (m * c), p.1 / c = m := by
        intro p hp
        have hb := enumFrom_fst_bounds p (l.take c) (m * c) hp
        rw [List.length_take] at hb
        exact Nat.div_eq_of_lt_le (by omega) (by
          have : (m + 1) * c = m * c + c := by ring
          omega)
      have hdrop_bounds : ∀ p ∈ (l.drop c).enumFrom (m * c + c), m + 1 ≤ p.1 / c := by
        intro p hp
        have hb := enumFrom_fst_bounds p (l.drop c) (m * c + c) hp
        rw [Nat.le_div_iff_mul_le hc]
        have : (m + 1) * c = m * c + c := by ring
        omega
      have hfirst : (l.enumFrom (m * c)).filter (fun p => p.1 / c = m)
          = (l.take c).enumFrom (m * c) := by
        rw [hsplit, List.filter_append]
        have h1 : ((l.take c).enumFrom (m * c)).filter (fun p => p.1 / c = m)
            = (l.take c).enumFrom (m * c) := by
          rw [List.filter_eq_self]
          intro p hp
          simpa using htake_bounds p hp
        have h2 : ((l.drop c).enumFrom (m * c + c)).filter (fun p => p.1 / c = m) = [] := by
          rw [List.filter_eq_nil_iff]
          intro p hp
          have := hdrop_bounds p hp
          simp only [decide_eq_true_eq]
          omega
        rw [h1, h2, List.append_nil]
      have htail : ∀ j ∈ List.range' (m + 1) n,
          (l.enumFrom (m * c)).filter (fun p => p.1 / c = j)
            = ((l.drop c).enumFrom ((m + 1) * c)).filter (fun p => p.1 / c = j) := by
        intro j hj
        have hjm : m + 1 ≤ j := (List.mem_range'_1.mp hj).1
        rw [hsplit, List.filter_append]
        have h1 : ((l.take c).enumFrom (m * c)).filter (fun p => p.1 / c = j) = [] := by
          rw [List.filter_eq_nil_iff]
          intro p hp
          have := htake_bounds p hp
          simp only [decide_eq_true_eq]
          omega
        rw [h1, List.nil_append]
        have hidx : m * c + c = (m + 1) * c := by ring
        rw [hidx]
      have hrec := ih (m + 1) (l.drop c) (by
        rw [List.length_drop]
        have : (n + 1) * c = n * c + c := by ring
        omega)
      have htl : ((List.range' (m + 1) n).map
          (fun j => (l.enumFrom (m * c)).filter (fun p => p.1 / c = j))).flatten
          = (l.drop c).enumFrom ((m + 1) * c) := by
        rw [List.map_congr_left htail]
        exact hrec
      rw [hfirst, htl, hsplit]
      have hidx : (m + 1) * c = m * c + c := by ring
      rw [hidx]

/-- The grouped quads, concatenated in group order, are exactly the
concatenated quads of the source (before the trailing-empty-group drop). -/
lemma batch_groups_flatten (source : List Resource) (c : Nat) (hc : 0 < c) :
    ((List.range (source.length / c + 1)).map
      (fun j => (((source.enum).filter (fun p => p.1 / c = j)).map Prod.snd).flatten)).flatten
    = source.flatten := by
  have hlen : source.length ≤ (source.length / c + 1) * c := by
    have h1 := Nat.div_add_mod source.length c
    have h2 := Nat.mod_lt source.length hc
    have h3 : (source.length / c + 1) * c = source.length / c * c + c := by ring
    have h4 : c * (source.length / c) = source.length / c * c := by ring
    omega
  have main := enumFrom_div_chunks c hc (source.length / c + 1) 0 source
    (by simpa using hlen)
  simp only [Nat.zero_mul] at main
  have henum : source.enum = source.enumFrom 0 := rfl
  have hgoal : ((List.range (source.length / c + 1)).map
      (fun j => (((source.enum).filter (fun p => p.1 / c = j)).map Prod.snd).flatten)).flatten
      = ((((List.range (source.length / c + 1)).map
        (fun j => (source.enum).filter (fun p => p.1 / c = j))).flatten).map Prod.snd).flatten := by
    rw [List.map_flatten, List.flatten_flatten, List.map_map, List.map_map]
    rfl
  rw [hgoal, List.range_eq_range', henum, main, List.enumFrom_map_snd]

/-- C10: for `count ≥ 1` the batched output concatenates, in order, to
exactly the concatenation of the input resources (no quad lost, duplicated
or reordered — dropping the last group only happens when it holds no
quads); for `count < 1` the original collection is returned unchanged. -/
theorem c10_batchResources_preserves_quads (source : List Resource) (count : Int) :
    (1 ≤ count → (batchResources source count).flatten = source.flatten) ∧
    (count < 1 → batchResources source count = source) := by
  constructor
  · intro h1
    unfold batchResources
    rw [if_neg (by omega)]
    have hc : 0 < count.toNat := by omega
    simp only
    by_cases hlast : ((List.range (source.length / count.toNat + 1)).map
        (fun j => (((source.enum).filter (fun p => p.1 / count.toNat = j)).map Prod.snd).flatten)).getLast?
        = some [] 
    · rw [if_pos hlast]
      have hne : ((List.range (source.length / count.toNat + 1)).map
          (fun j => (((source.enum).filter (fun p => p.1 / count.toNat = j)).map Prod.snd).flatten)) ≠ [] := by
        intro h
        rw [h] at hlast
        simp at hlast
      have hflat := batch_groups_flatten source count.toNat hc
      rw [← List.dropLast_concat_getLast hne] at hflat
      rw [List.flatten_append] at hflat
      have hlv : ((List.range (source.length / count.toNat + 1)).map
          (fun j => (((source.enum).filter (fun p => p.1 / count.toNat = j)).map Prod.snd).flatten)).getLast hne = ([] : Resource) := by
        have := List.getLast?_eq_getLast ((List.range (source.length / count.toNat + 1)).map
          (fun j => (((source.enum).filter (fun p => p.1 / count.toNat = j)).map Prod.snd).flatten)) hne
        rw [this] at hlast
        exact Option.some_inj.mp hlast
      rw [hlv] at hflat
      simpa using hflat
    · rw [if_neg hlast]
      exact batch_groups_flatten source count.toNat hc
  · intro h
    unfold batchResources
    rw [if_pos h]

/-- Witness for C10 at concrete inputs: three one-quad resources batched in
groups of two, and a batching with invalid count 0. -/
theorem c10_batchResources_preserves_quads_witness :
    ((1 : Int) ≤ 2 ∧
      (batchResources [[⟨Term.named "s", Term.named "p", Term.named "o1"⟩],
        [⟨Term.named "s", Term.named "p", Term.named "o2"⟩],
        [⟨Term.named "s", Term.named "p", Term.named "o3"⟩]] 2).flatten
        = ([[⟨Term.named "s", Term.named "p", Term.named "o1"⟩],
        [⟨Term.named "s", Term.named "p", Term.named "o2"⟩],
        [⟨Term.named "s", Term.named "p", Term.named "o3"⟩]] : List Resource).flatten) ∧
    ((0 : Int) < 1 ∧ batchResources [[⟨Term.named "s", Term.named "p", Term.named "o1"⟩]] 0
        = [[⟨Term.named "s", Term.named "p", Term.named "o1"⟩]]) :=
  ⟨⟨by decide, (c10_batchResources_preserves_quads _ 2).1 (by decide)⟩,
    ⟨by decide, (c10_batchResources_preserves_quads _ 0).2 (by decide)⟩⟩

/-! ## `extractResources` (C6, C7)

`extractResources(store, treePath, eventStreamURI)` collects the subjects
carrying `treePath`, builds for each one the list of its quads plus a
synthetic `tree:member` quad, and then walks each list while appending, for
every not-yet-visited object, the store quads having that object as subject
(filtered so that objects naming *other* main subjects are not pulled in).
The JavaScript iterates over the very array it extends; the model walks by
index with explicit fuel. -/

/-- The `tree:member` predicate IRI. -/
def TREEmember : String := "https://w3id.org/tree#member"

/-- `store.getSubjects(treePath, null, null)`: the distinct subjects having
at least one quad with the given predicate. -/
def getSubjects (store : List Quad) (treePath : Term) : List Term :=
  ((store.filter (fun q => q.predicate == treePath)).map (fun q => q.subject)).dedup

/-- The synthetic membership quad `⟨eventStreamURI, tree:member, subject⟩`. -/
def memberQuad (eventStreamURI : String) (s : Term) : Quad :=
  ⟨Term.named eventStreamURI, Term.named TREEmember, s⟩

/-- Initial working list for one main subject: all quads with that subject,
then the pushed membership quad. -/
def initialResource (store : List Quad) (eventStreamURI : String) (s : Term) : List Quad :=
  store.filter (fun q => q.subject == s) ++ [memberQuad eventStreamURI s]

/-- `quads[0].subject.id`, seeding the visited-object set. -/
def rootIdOf : List Quad → String
  | [] => ""
  | q :: _ => q.subject.id

/-- The quads appended for a newly visited object:
`store.getQuads(quad.object, null, null)` filtered so that each kept quad's
object either is the current resource's root or is not a main subject. -/
def expandQuads (store : List Quad) (mainIds : List String) (rootId : String)
    (obj : Term) : List Quad :=
  (store.filter (fun q => q.subject == obj)).filter
    (fun q => q.object.id == rootId || !(mainIds.contains q.object.id))

/-- The walk over the growing working list of one resource: at index `i`,
an already-visited object is skipped; otherwise it is marked visited and
its expansion quads are appended to the list being walked.  Fuel-indexed
(one unit per visited index). -/
def walkAux (store : List Quad) (mainIds : List String) (rootId : String) :
    Nat → List Quad → Nat → List String → Option (List Quad)
  | 0, _, _, _ => none
  | fuel + 1, quads, i, visited =>
    if h : i < quads.length then
      if (quads.get ⟨i, h⟩).object.id ∈ visited then
        walkAux store mainIds rootId fuel quads (i + 1) visited
      else
        walkAux store mainIds rootId fuel
          (quads ++ expandQuads store mainIds rootId (quads.get ⟨i, h⟩).object) (i + 1)
          ((quads.get ⟨i, h⟩).object.id :: visited)
    else some quads

/-- Option-valued map, failing when any element fails. -/
def mapOption (f : α → Option β) : List α → Option (List β)
  | [] => some []
  | a :: l =>
    match f a, mapOption f l with
    | some b, some bs => some (b :: bs)
    | _, _ => none

/-- Extraction of the single resource rooted at main subject `s`. -/
def extractOneResource (store : List Quad) (mainIds : List String)
    (eventStreamURI : String) (fuel : Nat) (s : Term) : Option (List Quad) :=
  walkAux store mainIds (rootIdOf (initialResource store eventStreamURI s)) fuel
    (initialResource store eventStreamURI s) 0
    [rootIdOf (initialResource store eventStreamURI s)]

/-- Model of `extractResources(store, treePath, eventStreamURI)`. -/
def extractResources (store : List Quad) (treePath : Term) (eventStreamURI : String)
    (fuel : Nat) : Option (List (List Quad)) :=
  mapOption
    (extractOneResource store ((getSubjects store treePath).map Term.id) eventStreamURI fuel)
    (getSubjects store treePath)

/-- The walk only appends: a successful result extends the initial list. -/
lemma walkAux_extends (store : List Quad) (mainIds : List String) (rootId : String) :
    ∀ (fuel : Nat) (quads : List Quad) (i : Nat) (visited : List String) (r : List Quad),
      walkAux store mainIds rootId fuel quads i visited = some r →
      ∃ t, r = quads ++ t := by
  intro fuel
  induction fuel with
  | zero =>
    intro quads i visited r h
    exact absurd h (by simp [walkAux])
  | succ n ih =>
    intro quads i visited r h
    simp only [walkAux] at h
    by_cases hlt : i < quads.length
    · rw [dif_pos hlt] at h
      by_cases hv : (quads.get ⟨i, hlt⟩).object.id ∈ visited
      · rw [if_pos hv] at h
        exact ih _ _ _ _ h
      · rw [if_neg hv] at h
        obtain ⟨t, ht⟩ := ih _ _ _ _ h
        exact ⟨expandQuads store mainIds rootId (quads.get ⟨i, hlt⟩).object ++ t,
          by rw [ht, List.append_assoc]⟩
    · rw [dif_neg hlt] at h
      cases h
      exact ⟨[], (List.append_nil _).symm⟩

/-- `mapOption` success gives a pointwise relation between input and output. -/
lemma mapOption_forall₂ (f : α → Option β) :
    ∀ (l : List α) (out : List β), mapOption f l = some out →
      List.Forall₂ (fun a b => f a = some b) l out := by
  intro l
  induction l with
  | nil =>
    intro out h
    simp only [mapOption, Option.some.injEq] at h
    rw [← h]
    exact List.Forall₂.nil
  | cons a rest ih =>
    intro out h
    simp only [mapOption] at h
    cases hfa : f a with
    | none => rw [hfa] at h; exact absurd h (by simp)
    | some b =>
      rw [hfa] at h
      cases hrest : mapOption f rest with
      | none => rw [hrest] at h; exact absurd h (by simp)
      | some bs =>
        rw [hrest] at h
        simp only [Option.some.injEq] at h
        rw [← h]
        exact List.Forall₂.cons hfa (ih bs hrest)

/-- One extracted resource contains its membership quad and every store
quad whose subject is the main subject. -/
lemma extractOne_contains (store : List Quad) (mainIds : List String)
    (eventStreamURI : String) (fuel : Nat) (s : Term) (resource : List Quad)
    (h : extractOneResource store mainIds eventStreamURI fuel s = some resource) :
    memberQuad eventStreamURI s ∈ resource ∧
    ∀ q ∈ store, q.subject = s → q ∈ resource := by
  obtain ⟨t, rfl⟩ := walkAux_extends store mainIds _ fuel _ 0 _ resource h
  constructor
  · apply List.mem_append_left
    apply List.mem_append_right
    simp
  · intro q hq hsubj
    apply List.mem_append_left
    apply List.mem_append_left
    rw [List.mem_filter]
    exact ⟨hq, by simp [hsubj]⟩

/-- C6: every resource returned by `extractResources` contains the
synthetic membership quad for its main subject and every store quad whose
subject is that main subject (in particular every quad asserting the
distinguishing predicate on it). -/
theorem c6_extract_contains_member_and_subject_quads
    (store : List Quad) (treePath : Term) (eventStreamURI : String)
    (fuel : Nat) (result : List (List Quad))
    (h : extractResources store treePath eventStreamURI fuel = some result) :
    List.Forall₂ (fun s resource =>
      memberQuad eventStreamURI s ∈ resource ∧
      ∀ q ∈ store, q.subject = s → q ∈ resource)
      (getSubjects store treePath) result := by
  have hF := mapOption_forall₂ _ _ _ h
  apply List.Forall₂.imp ?_ hF
  intro s resource hsr
  exact extractOne_contains store _ eventStreamURI fuel s resource hsr

/-- Witness for C6 at a concrete input: a two-quad store with one main
subject carrying the distinguishing predicate. -/
theorem c6_extract_contains_member_and_subject_quads_witness :
    extractResources
      [⟨Term.named "urn:s", Term.named "urn:created", Term.literal "2024" "xsd:string"⟩,
       ⟨Term.named "urn:s", Term.named "urn:p", Term.named "urn:o"⟩]
      (Term.named "urn:created") "urn:stream" 8
      = some [[⟨Term.named "urn:s", Term.named "urn:created", Term.literal "2024" "xsd:string"⟩,
        ⟨Term.named "urn:s", Term.named "urn:p", Term.named "urn:o"⟩,
        memberQuad "urn:stream" (Term.named "urn:s")]] ∧
    List.Forall₂ (fun s resource =>
      memberQuad "urn:stream" s ∈ resource ∧
      ∀ q ∈ [⟨Term.named "urn:s", Term.named "urn:created", Term.literal "2024" "xsd:string"⟩,
        (⟨Term.named "urn:s", Term.named "urn:p", Term.named "urn:o"⟩ : Quad)],
          q.subject = s → q ∈ resource)
      (getSubjects
        [⟨Term.named "urn:s", Term.named "urn:created", Term.literal "2024" "xsd:string"⟩,
         ⟨Term.named "urn:s", Term.named "urn:p", Term.named "urn:o"⟩]
        (Term.named "urn:created"))
      [[⟨Term.named "urn:s", Term.named "urn:created", Term.literal "2024" "xsd:string"⟩,
        ⟨Term.named "urn:s", Term.named "urn:p", Term.named "urn:o"⟩,
        memberQuad "urn:stream" (Term.named "urn:s")]] :=
  ⟨by decide,
    c6_extract_contains_member_and_subject_quads _ _ _ 8 _ (by decide)⟩

/-- Object-identifier universe of a store: the (deduplicated) ids of all
quad objects. -/
def objUniverse (store : List Quad) : List String :=
  (store.map (fun q => q.object.id)).dedup

/-- Invariant of the walk: every quad on the working list has an object id
drawn from the store's object universe, or one that is already visited
(the membership quad's object is the seeded root). -/
def walkInvariant (store : List Quad) (quads : List Quad) (visited : List String) : Prop :=
  ∀ q ∈ quads, q.object.id ∈ objUniverse store ∨ q.object.id ∈ visited

/-- Number of universe ids not yet visited: the termination measure. -/
def unvisitedCount (store : List Quad) (visited : List String) : Nat :=
  ((objUniverse store).filter (fun x => !(List.contains visited x))).length

/-- Expansion quads are store quads. -/
lemma expandQuads_sub (store : List Quad) (mainIds : List String) (rootId : String)
    (obj : Term) : ∀ q ∈ expandQuads store mainIds rootId obj, q ∈ store := by
  intro q hq
  unfold expandQuads at hq
  rw [List.mem_filter] at hq
  exact (List.mem_filter.mp hq.1).1

/-- The invariant is preserved when a new object is visited and its
expansion quads are appended. -/
lemma walkInvariant_step (store : List Quad) (quads newQuads : List Quad)
    (visited : List String) (x : String)
    (hI : walkInvariant store quads visited)
    (hnew : ∀ q ∈ newQuads, q ∈ store) :
    walkInvariant store (quads ++ newQuads) (x :: visited) := by
  intro q hq
  rcases List.mem_append.mp hq with h | h
  · rcases hI q h with h' | h'
    · exact Or.inl h'
    · exact Or.inr (List.mem_cons_of_mem _ h')
  · left
    unfold objUniverse
    rw [List.mem_dedup]
    exact List.mem_map.mpr ⟨q, hnew q h, rfl⟩

/-- Visiting a fresh universe id strictly decreases the measure. -/
lemma unvisited_decrease (store : List Quad) (visited : List String) (x : String)
    (hx : x ∈ objUniverse store) (hnv : x ∉ visited) :
    unvisitedCount store (x :: visited) < unvisitedCount store visited := by
  unfold unvisitedCount
  have hsub : (objUniverse store).filter (fun y => !(List.contains (x :: visited) y))
      = ((objUniverse store).filter (fun y => !(List.contains visited y))).filter
          (fun y => !(y == x)) := by
    rw [List.filter_filter]
    apply List.filter_congr
    intro y hy
    rw [List.contains_cons]
    cases hyx : y == x <;> cases hyv : List.contains visited y <;> simp [hyx, hyv]
  rw [hsub]
  have hxmem : x ∈ (objUniverse store).filter (fun y => !(List.contains visited y)) := by
    rw [List.mem_filter]
    refine ⟨hx, ?_⟩
    simpa using hnv
  have hle := List.length_filter_le (fun y => !(y == x))
    ((objUniverse store).filter (fun y => !(List.contains visited y)))
  rcases Nat.lt_or_ge (((objUniverse store).filter (fun y => !(List.contains visited y))).filter
      (fun y => !(y == x))).length
      ((objUniverse store).filter (fun y => !(List.contains visited y))).length with h | h
  · exact h
  · exfalso
    have heq : (((objUniverse store).filter (fun y => !(List.contains visited y))).filter
        (fun y => !(y == x))).length
        = ((objUniverse store).filter (fun y => !(List.contains visited y))).length := by omega
    have := List.filter_length_eq_length.mp heq x hxmem
    simp at this

/-- Termination of the walk: under the invariant, some fuel suffices.  The
proof is by strong induction on the number of unvisited universe ids and,
inside it, induction on the number of list positions still to scan. -/
lemma walkAux_terminates (store : List Quad) (mainIds : List String) (rootId : String) :
    ∀ (u : Nat) (quads : List Quad) (visited : List String) (i : Nat),
      walkInvariant store quads visited →
      unvisitedCount store visited ≤ u →
      ∃ fuel r, walkAux store mainIds rootId fuel quads i visited = some r := by
  intro u
  induction u using Nat.strong_induction_on with
  | _ u IHu =>
    intro quads visited
    suffices hinner : ∀ (k i : Nat), quads.length - i ≤ k →
        walkInvariant store quads visited →
        unvisitedCount store visited ≤ u →
        ∃ fuel r, walkAux store mainIds rootId fuel quads i visited = some r by
      intro i hI hc
      exact hinner (quads.length - i) i (le_refl _) hI hc
    intro k
    induction k with
    | zero =>
      intro i hik hI hc
      have hnlt : ¬ i < quads.length := by omega
      exact ⟨1, quads, by rw [walkAux, dif_neg hnlt]⟩
    | succ k ihk =>
      intro i hik hI hc
      by_cases hlt : i < quads.length
      · by_cases hv : (quads.get ⟨i, hlt⟩).object.id ∈ visited
        · obtain ⟨fuel, r, hr⟩ := ihk (i + 1) (by omega) hI hc
          exact ⟨fuel + 1, r, by rw [walkAux, dif_pos hlt, if_pos hv]; exact hr⟩
        · have hxuniv : (quads.get ⟨i, hlt⟩).object.id ∈ objUniverse store := by
            rcases hI _ (List.get_mem quads i hlt) with h | h
            · exact h
            · exact absurd h hv
          have hdec := unvisited_decrease store visited (quads.get ⟨i, hlt⟩).object.id hxuniv hv
          have hInew := walkInvariant_step store quads
            (expandQuads store mainIds rootId (quads.get ⟨i, hlt⟩).object) visited
            (quads.get ⟨i, hlt⟩).object.id hI
            (expandQuads_sub store mainIds rootId (quads.get ⟨i, hlt⟩).object)
          obtain ⟨fuel, r, hr⟩ := IHu (unvisitedCount store ((quads.get ⟨i, hlt⟩).object.id :: visited))
            (by omega) _ _ (i + 1) hInew (le_refl _)
          exact ⟨fuel + 1, r, by rw [walkAux, dif_pos hlt, if_neg hv]; exact hr⟩
      · exact ⟨1, quads, by rw [walkAux, dif_neg hlt]⟩

/-- More fuel never changes a successful walk. -/
lemma walkAux_mono (store : List Quad) (mainIds : List String) (rootId : String) :
    ∀ (fuel fuel' : Nat) (quads : List Quad) (i : Nat) (visited : List String)
      (r : List Quad), fuel ≤ fuel' →
      walkAux store mainIds rootId fuel quads i visited = some r →
      walkAux store mainIds rootId fuel' quads i visited = some r := by
  intro fuel
  induction fuel with
  | zero =>
    intro fuel' quads i visited r _ h
    exact absurd h (by simp [walkAux])
  | succ n ih =>
    intro fuel' quads i visited r hle h
    obtain ⟨m, rfl⟩ : ∃ m, fuel' = m + 1 := ⟨fuel' - 1, by omega⟩
    rw [walkAux] at h ⊢
    by_cases hlt : i < quads.length
    · rw [dif_pos hlt] at h ⊢
      by_cases hv : (quads.get ⟨i, hlt⟩).object.id ∈ visited
      · rw [if_pos hv] at h ⊢
        exact ih m _ _ _ _ (by omega) h
      · rw [if_neg hv] at h ⊢
        exact ih m _ _ _ _ (by omega) h
    · rw [dif_neg hlt] at h ⊢
      exact h

/-- `mapOption` is monotone in a fuel-indexed function. -/
lemma mapOption_mono (g : Nat → α → Option β)
    (hmono : ∀ (f f' : Nat) (a : α) (b : β), f ≤ f' → g f a = some b → g f' a = some b) :
    ∀ (l : List α) (out : List β) (f f' : Nat), f ≤ f' →
      mapOption (g f) l = some out → mapOption (g f') l = some out := by
  intro l
  induction l with
  | nil => intro out f f' _ h; exact h
  | cons a rest ih =>
    intro out f f' hle h
    simp only [mapOption] at h ⊢
    cases hfa : g f a with
    | none => rw [hfa] at h; exact absurd h (by simp)
    | some b =>
      rw [hfa] at h
      cases hrest : mapOption (g f) rest with
      | none => rw [hrest] at h; exact absurd h (by simp)
      | some bs =>
        rw [hrest] at h
        rw [hmono f f' a b hle hfa, ih bs f f' hle hrest]
        exact h

/-- If each element succeeds at some fuel and the function is monotone in
fuel, a single fuel works for the whole list. -/
lemma mapOption_exists_fuel (g : Nat → α → Option β)
    (hmono : ∀ (f f' : Nat) (a : α) (b : β), f ≤ f' → g f a = some b → g f' a = some b) :
    ∀ l : List α, (∀ a ∈ l, ∃ fuel b, g fuel a = some b) →
      ∃ fuel out, mapOption (g fuel) l = some out := by
  intro l
  induction l with
  | nil => intro _; exact ⟨0, [], rfl⟩
  | cons a rest ih =>
    intro hall
    obtain ⟨f1, b, hb⟩ := hall a (by simp)
    obtain ⟨f2, out, hout⟩ := ih (fun x hx => hall x (by simp [hx]))
    refine ⟨max f1 f2, b :: out, ?_⟩
    have hb' : g (max f1 f2) a = some b := hmono f1 _ a b (le_max_left _ _) hb
    have hout' : mapOption (g (max f1 f2)) rest = some out :=
      mapOption_mono g hmono rest out f2 _ (le_max_right _ _) hout
    simp only [mapOption, hb', hout']

/-- The initial working list of a genuine main subject satisfies the walk
invariant with the seeded visited set. -/
lemma initial_invariant (store : List Quad) (treePath : Term) (eventStreamURI : String)
    (s : Term) (hs : s ∈ getSubjects store treePath) :
    walkInvariant store (initialResource store eventStreamURI s)
      [rootIdOf (initialResource store eventStreamURI s)] := by
  have hsq : ∃ q0 ∈ store, q0.subject = s := by
    unfold getSubjects at hs
    rw [List.mem_dedup, List.mem_map] at hs
    obtain ⟨q0, hq0, rfl⟩ := hs
    exact ⟨q0, (List.mem_filter.mp hq0).1, rfl⟩
  obtain ⟨q0, hq0s, hq0subj⟩ := hsq
  have hq0f : q0 ∈ store.filter (fun q => q.subject == s) := by
    rw [List.mem_filter]
    exact ⟨hq0s, by simp [hq0subj]⟩
  cases hfil : store.filter (fun q => q.subject == s) with
  | nil => rw [hfil] at hq0f; exact absurd hq0f (by simp)
  | cons q1 tl =>
    have hq1s : q1.subject = s := by
      have : q1 ∈ store.filter (fun q => q.subject == s) := by rw [hfil]; simp
      have := (List.mem_filter.mp this).2
      simpa using this
    intro q hq
    unfold initialResource at hq
    rw [hfil] at hq
    rcases List.mem_append.mp hq with h | h
    · left
      unfold objUniverse
      rw [List.mem_dedup]
      have hqs : q ∈ store := by
        have : q ∈ store.filter (fun x => x.subject == s) := by rw [hfil]; exact h
        exact (List.mem_filter.mp this).1
      exact List.mem_map.mpr ⟨q, hqs, rfl⟩
    · right
      have hqm : q = memberQuad eventStreamURI s := by simpa using h
      unfold initialResource
      rw [hfil]
      simp only [rootIdOf, List.cons_append]
      rw [hqm]
      simp [memberQuad, hq1s]

/-- C7: `extractResources` terminates on every finite store, cyclic object
graphs included — there is a fuel on which every resource walk completes
(the visited set can only grow along the store's finite object universe). -/
theorem c7_extract_terminates (store : List Quad) (treePath : Term)
    (eventStreamURI : String) :
    ∃ fuel result, extractResources store treePath eventStreamURI fuel = some result := by
  unfold extractResources
  apply mapOption_exists_fuel
  · intro f f' s b hle hb
    unfold extractOneResource at hb ⊢
    exact walkAux_mono store _ _ f f' _ 0 _ b hle hb
  · intro s hs
    unfold extractOneResource
    exact walkAux_terminates store _ _
      (unvisitedCount store [rootIdOf (initialResource store eventStreamURI s)])
      (initialResource store eventStreamURI s)
      [rootIdOf (initialResource store eventStreamURI s)] 0
      (initial_invariant store treePath eventStreamURI s hs) (le_refl _)

/-! ## `resourceToOptimisedTurtle` (C9)

The serializer first groups the resource: two insertion-ordered maps
(blank-node subjects and other subjects), keyed by subject id, each mapping
predicate ids to object arrays deduplicated by `Term.equals`.  It then
walks the named grouping and calls `writer.addQuad` once per recorded
object, inlining the blank grouping of blank-node objects via
`writer.blank` (a missing blank grouping makes the JavaScript throw — the
documented unsupported input shape — modelled by `none`).  We model the
textual output by the ordered sequence of `addQuad` calls. -/

/-- Predicate grouping of one subject: predicate id to recorded objects. -/
abbrev PropMap := List (String × List Term)

/-- Subject grouping: subject id to its predicate grouping, in insertion
order (JS `Map` appends new keys at the tail). -/
abbrev SubjMap := List (String × PropMap)

/-- Update the value stored at a key of an association list in place. -/
def updateAssoc (m : List (String × β)) (k : String) (f : β → β) : List (String × β) :=
  m.map (fun e => if e.1 = k then (e.1, f e.2) else e)

/-- Effect of one loop iteration of the grouping phase on the map chosen
for the quad's subject: unknown subject and predicate entries are appended;
an object structurally equal to one already recorded for the same
subject+predicate pair is not re-added. -/
def addObject (m : SubjMap) (s p : String) (o : Term) : SubjMap :=
  match List.lookup s m with
  | none => m ++ [(s, [(p, [o])])]
  | some props =>
    match List.lookup p props with
    | none => updateAssoc m s (fun pr => pr ++ [(p, [o])])
    | some objs =>
      if o ∈ objs then m
      else updateAssoc m s (fun pr => updateAssoc pr p (fun os => os ++ [o]))

/-- One loop iteration of the grouping phase: the map is chosen by the
subject's term type (`blank` for blank-node subjects, `named` otherwise). -/
def groupStep (maps : SubjMap × SubjMap) (q : Quad) : SubjMap × SubjMap :=
  if q.subject.isBlank then (maps.1, addObject maps.2 q.subject.id q.predicate.id q.object)
  else (addObject maps.1 q.subject.id q.predicate.id q.object, maps.2)

/-- The grouping phase of `resourceToOptimisedTurtle`: first component is
the named map, second the blank map. -/
def groupResource (resource : List Quad) : SubjMap × SubjMap :=
  resource.foldl groupStep ([], [])

/-- One argument of a `writer.addQuad` call: a plain object, or an inlined
anonymous node `writer.blank(blankPredicate, blankObject)`. -/
inductive EmitObj where
  | plain (o : Term)
  | anon (blankPredicate : String) (blankObject : Term)
deriving DecidableEq

/-- The writer arguments produced for one recorded object: a non-blank
object is written as such; a blank object is replaced by the inlined
entries of its blank grouping (`blank.get(object.id)!` throws when the
blank node never appears as a subject — modelled as `none`). -/
def emitObject (blank : SubjMap) (o : Term) : Option (List EmitObj) :=
  if o.isBlank then
    match List.lookup o.id blank with
    | none => none
    | some props => some ((props.map (fun pr => pr.2.map (EmitObj.anon pr.1))).flatten)
  else some [EmitObj.plain o]

/-- Writer calls for the recorded objects of one subject+predicate pair. -/
def emitObjs (blank : SubjMap) (s p : String) :
    List Term → Option (List (String × String × EmitObj))
  | [] => some []
  | o :: os =>
    match emitObject blank o, emitObjs blank s p os with
    | some es, some tail => some (es.map (fun e => (s, p, e)) ++ tail)
    | _, _ => none

/-- Writer calls for one named subject's predicate grouping. -/
def emitProps (blank : SubjMap) (s : String) :
    PropMap → Option (List (String × String × EmitObj))
  | [] => some []
  | pr :: rest =>
    match emitObjs blank s pr.1 pr.2, emitProps blank s rest with
    | some a, some b => some (a ++ b)
    | _, _ => none

/-- Writer calls for the whole named grouping. -/
def emitNamed (blank : SubjMap) : SubjMap → Option (List (String × String × EmitObj))
  | [] => some []
  | e :: rest =>
    match emitProps blank e.1 e.2, emitNamed blank rest with
    | some a, some b => some (a ++ b)
    | _, _ => none

/-- Model of `resourceToOptimisedTurtle(resource, prefixes)`: the ordered
sequence of `writer.addQuad` calls (the prefix table only shortens IRIs in
the final text and does not influence which triples are written). -/
def resourceToOptimisedTurtle (resource : List Quad) :
    Option (List (String × String × EmitObj)) :=
  emitNamed (groupResource resource).2 (groupResource resource).1

/-- Recorded objects for a subject id and predicate id in a grouping. -/
def objectsOf (m : SubjMap) (s p : String) : List Term :=
  match List.lookup s m with
  | none => []
  | some props =>
    match List.lookup p props with
    | none => []
    | some objs => objs

/-- Append-if-absent, the per-object effect of the grouping phase. -/
def dedupAdd (l : List Term) (o : Term) : List Term :=
  if o ∈ l then l else l ++ [o]

/-- Cons-step of `List.lookup` at the stored key. -/
lemma lookup_cons_self (a : String) (b : β) (m : List (String × β)) :
    List.lookup a ((a, b) :: m) = some b := by
  simp [List.lookup]

/-- Cons-step of `List.lookup` at a different key. -/
lemma lookup_cons_ne (k a : String) (b : β) (m : List (String × β)) (h : k ≠ a) :
    List.lookup k ((a, b) :: m) = List.lookup k m := by
  have hba : (k == a) = false := by simpa using h
  simp [List.lookup, hba]

/-- Lookup after an in-place update. -/
lemma lookup_updateAssoc (m : List (String × β)) (s : String) (f : β → β) :
    ∀ k, List.lookup k (updateAssoc m s f)
      = if k = s then (List.lookup s m).map f else List.lookup k m := by
  induction m with
  | nil => intro k; by_cases hk : k = s <;> simp [updateAssoc, hk]
  | cons e m' ih =>
    obtain ⟨a, b⟩ := e
    intro k
    have hupd : updateAssoc ((a, b) :: m') s f
        = (if a = s then (a, f b) else (a, b)) :: updateAssoc m' s f := by
      simp [updateAssoc]
    rw [hupd]
    by_cases ha : a = s
    · subst ha
      rw [if_pos rfl]
      by_cases hk : k = a
      · subst hk
        rw [lookup_cons_self, lookup_cons_self, if_pos rfl]
        rfl
      · rw [lookup_cons_ne k a _ _ hk, lookup_cons_ne k a _ _ hk, ih k, if_neg hk, if_neg hk]
    · rw [if_neg ha]
      by_cases hk : k = a
      · subst hk
        rw [lookup_cons_self, lookup_cons_self, if_neg ha]
      · rw [lookup_cons_ne k a _ _ hk, lookup_cons_ne k a _ _ hk, ih k]
        by_cases hks : k = s
        · rw [if_pos hks, if_pos hks, lookup_cons_ne s a _ _ (fun hsa => ha hsa.symm)]
        · rw [if_neg hks, if_neg hks]

/-- Lookup in an association list extended at the tail. -/
lemma lookup_append_single (m : List (String × β)) (s : String) (v : β) :
    ∀ k, List.lookup k (m ++ [(s, v)])
      = match List.lookup k m with
        | some w => some w
        | none => if k = s then some v else none := by
  induction m with
  | nil =>
    intro k
    by_cases hk : k = s
    · subst hk
      rw [List.nil_append, lookup_cons_self]
      simp
    · rw [List.nil_append, lookup_cons_ne k s _ _ hk]
      simp [hk]
  | cons e m' ih =>
    obtain ⟨a, b⟩ := e
    intro k
    by_cases hk : k = a
    · subst hk
      rw [List.cons_append, lookup_cons_self, lookup_cons_self]
    · rw [List.cons_append, lookup_cons_ne k a _ _ hk, lookup_cons_ne k a _ _ hk]
      exact ih k

/-- `addObject` on an unknown subject appends a fresh entry. -/
lemma addObject_eq_append (m : SubjMap) (s p : String) (o : Term)
    (hm : List.lookup s m = none) : addObject m s p o = m ++ [(s, [(p, [o])])] := by
  unfold addObject
  simp only [hm]

/-- `addObject` on a known subject but unknown predicate appends a fresh
predicate group. -/
lemma addObject_eq_newPred (m : SubjMap) (s p : String) (o : Term) (props : PropMap)
    (hm : List.lookup s m = some props) (hp : List.lookup p props = none) :
    addObject m s p o = updateAssoc m s (fun pr => pr ++ [(p, [o])]) := by
  unfold addObject
  simp only [hm, hp]

/-- `addObject` of an object already recorded for the pair is the identity. -/
lemma addObject_eq_dup (m : SubjMap) (s p : String) (o : Term) (props : PropMap)
    (objs : List Term) (hm : List.lookup s m = some props)
    (hp : List.lookup p props = some objs) (ho : o ∈ objs) :
    addObject m s p o = m := by
  unfold addObject
  simp only [hm, hp, if_pos ho]

/-- `addObject` of a new object appends it to the group. -/
lemma addObject_eq_push (m : SubjMap) (s p : String) (o : Term) (props : PropMap)
    (objs : List Term) (hm : List.lookup s m = some props)
    (hp : List.lookup p props = some objs) (ho : o ∉ objs) :
    addObject m s p o = updateAssoc m s (fun pr => updateAssoc pr p (fun os => os ++ [o])) := by
  unfold addObject
  simp only [hm, hp, if_neg ho]

/-- Pointwise effect of `addObject` on the recorded objects: only the
targeted subject+predicate group changes, by an append-if-absent. -/
lemma objectsOf_addObject (m : SubjMap) (s p : String) (o : Term) :
    ∀ k q, objectsOf (addObject m s p o) k q
      = if k = s ∧ q = p then dedupAdd (objectsOf m s p) o else objectsOf m k q := by
  intro k q
  cases hm : List.lookup s m with
  | none =>
    rw [addObject_eq_append m s p o hm]
    by_cases hk : k = s
    · subst hk
      by_cases hq : q = p
      · subst hq
        simp [objectsOf, lookup_append_single, hm, lookup_cons_self, dedupAdd]
      · simp [objectsOf, lookup_append_single, hm, lookup_cons_ne q p _ _ hq, hq]
    · cases hkm : List.lookup k m with
      | none => simp [objectsOf, lookup_append_single, hk, hkm]
      | some w => simp [objectsOf, lookup_append_single, hk, hkm]
  | some props =>
    cases hp : List.lookup p props with
    | none =>
      rw [addObject_eq_newPred m s p o props hm hp]
      by_cases hk : k = s
      · subst hk
        by_cases hq : q = p
        · subst hq
          simp [objectsOf, lookup_updateAssoc, lookup_append_single, hm, hp, dedupAdd]
        · cases hqp : List.lookup q props with
          | none => simp [objectsOf, lookup_updateAssoc, lookup_append_single, hm, hq, hqp]
          | some w => simp [objectsOf, lookup_updateAssoc, lookup_append_single, hm, hq, hqp]
      · simp [objectsOf, lookup_updateAssoc, hk, hm]
    | some objs =>
      by_cases ho : o ∈ objs
      · rw [addObject_eq_dup m s p o props objs hm hp ho]
        by_cases hkq : k = s ∧ q = p
        · obtain ⟨rfl, rfl⟩ := hkq
          simp [objectsOf, hm, hp, dedupAdd, ho]
        · rw [if_neg hkq]
      · rw [addObject_eq_push m s p o props objs hm hp ho]
        by_cases hk : k = s
        · subst hk
          by_cases hq : q = p
          · subst hq
            simp [objectsOf, lookup_updateAssoc, hm, hp, dedupAdd, ho]
          · simp [objectsOf, lookup_updateAssoc, hm, hq, hp]
        · simp [objectsOf, lookup_updateAssoc, hk, hm]

/-- Characterization of the grouping fold: the recorded objects for a
subject id and predicate id are the objects of the matching quads, folded
through append-if-absent, on the respective map. -/
lemma foldl_groupStep_objectsOf :
    ∀ (resource : List Quad) (maps : SubjMap × SubjMap) (s p : String),
      objectsOf (resource.foldl groupStep maps).1 s p
        = ((resource.filter (fun q => !q.subject.isBlank && q.subject.id == s
              && q.predicate.id == p)).map (fun q => q.object)).foldl dedupAdd
            (objectsOf maps.1 s p)
      ∧ objectsOf (resource.foldl groupStep maps).2 s p
        = ((resource.filter (fun q => q.subject.isBlank && q.subject.id == s
              && q.predicate.id == p)).map (fun q => q.object)).foldl dedupAdd
            (objectsOf maps.2 s p) := by
  intro resource
  induction resource with
  | nil => intro maps s p; exact ⟨rfl, rfl⟩
  | cons q rest ih =>
    intro maps s p
    rw [List.foldl_cons]
    by_cases hb : q.subject.isBlank
    · have hstep : groupStep maps q
          = (maps.1, addObject maps.2 q.subject.id q.predicate.id q.object) := by
        unfold groupStep
        rw [if_pos hb]
      rw [hstep]
      obtain ⟨ih1, ih2⟩ := ih (maps.1, addObject maps.2 q.subject.id q.predicate.id q.object) s p
      constructor
      · rw [ih1]
        have hfilt : (q :: rest).filter (fun x => !x.subject.isBlank && x.subject.id == s
              && x.predicate.id == p)
            = rest.filter (fun x => !x.subject.isBlank && x.subject.id == s
              && x.predicate.id == p) := by
          rw [List.filter_cons]
          simp [hb]
        rw [hfilt]
      · rw [ih2]
        simp only
        rw [objectsOf_addObject]
        by_cases hsp : s = q.subject.id ∧ p = q.predicate.id
        · obtain ⟨hs, hpp⟩ := hsp
          subst hs
          subst hpp
          rw [if_pos ⟨rfl, rfl⟩]
          have hfilt : (q :: rest).filter (fun x => x.subject.isBlank
                && x.subject.id == q.subject.id && x.predicate.id == q.predicate.id)
              = q :: rest.filter (fun x => x.subject.isBlank
                && x.subject.id == q.subject.id && x.predicate.id == q.predicate.id) := by
            rw [List.filter_cons]
            simp [hb]
          rw [hfilt, List.map_cons, List.foldl_cons]
        · rw [if_neg hsp]
          have hfilt : (q :: rest).filter (fun x => x.subject.isBlank
                && x.subject.id == s && x.predicate.id == p)
              = rest.filter (fun x => x.subject.isBlank
                && x.subject.id == s && x.predicate.id == p) := by
            rw [List.filter_cons]
            have : ¬ (q.subject.id = s ∧ q.predicate.id = p) := by
              intro h
              exact hsp ⟨h.1.symm, h.2.symm⟩
            by_cases h1 : q.subject.id = s
            · have h2 : ¬ q.predicate.id = p := fun h2 => this ⟨h1, h2⟩
              simp [h1, h2]
            · simp [h1]
          rw [hfilt]
    · have hstep : groupStep maps q
          = (addObject maps.1 q.subject.id q.predicate.id q.object, maps.2) := by
        unfold groupStep
        rw [if_neg hb]
      rw [hstep]
      obtain ⟨ih1, ih2⟩ := ih (addObject maps.1 q.subject.id q.predicate.id q.object, maps.2) s p
      constructor
      · rw [ih1]
        simp only
        rw [objectsOf_addObject]
        by_cases hsp : s = q.subject.id ∧ p = q.predicate.id
        · obtain ⟨hs, hpp⟩ := hsp
          subst hs
          subst hpp
          rw [if_pos ⟨rfl, rfl⟩]
          have hfilt : (q :: rest).filter (fun x => !x.subject.isBlank
                && x.subject.id == q.subject.id && x.predicate.id == q.predicate.id)
              = q :: rest.filter (fun x => !x.subject.isBlank
                && x.subject.id == q.subject.id && x.predicate.id == q.predicate.id) := by
            rw [List.filter_cons]
            simp [hb]
          rw [hfilt, List.map_cons, List.foldl_cons]
        · rw [if_neg hsp]
          have hfilt : (q :: rest).filter (fun x => !x.subject.isBlank
                && x.subject.id == s && x.predicate.id == p)
              = rest.filter (fun x => !x.subject.isBlank
                && x.subject.id == s && x.predicate.id == p) := by
            rw [List.filter_cons]
            have : ¬ (q.subject.id = s ∧ q.predicate.id = p) := by
              intro h
              exact hsp ⟨h.1.symm, h.2.symm⟩
            by_cases h1 : q.subject.id = s
            · have h2 : ¬ q.predicate.id = p := fun h2 => this ⟨h1, h2⟩
              simp [h1, h2]
            · simp [h1]
          rw [hfilt]
      · rw [ih2]
        have hfilt : (q :: rest).filter (fun x => x.subject.isBlank && x.subject.id == s
              && x.predicate.id == p)
            = rest.filter (fun x => x.subject.isBlank && x.subject.id == s
              && x.predicate.id == p) := by
          rw [List.filter_cons]
          simp [hb]
        rw [hfilt]

/-- Append-if-absent preserves duplicate-freedom. -/
lemma dedupAdd_foldl_nodup :
    ∀ (l : List Term) (init : List Term), init.Nodup → (l.foldl dedupAdd init).Nodup := by
  intro l
  induction l with
  | nil => intro init h; exact h
  | cons o os ih =>
    intro init h
    rw [List.foldl_cons]
    apply ih
    unfold dedupAdd
    by_cases ho : o ∈ init
    · rw [if_pos ho]; exact h
    · rw [if_neg ho]
      rw [List.nodup_append]
      exact ⟨h, List.nodup_singleton o, by simpa using ho⟩

/-- Every folded-in object ends up recorded. -/
lemma dedupAdd_foldl_mem :
    ∀ (l : List Term) (init : List Term) (o : Term), (o ∈ init ∨ o ∈ l) →
      o ∈ l.foldl dedupAdd init := by
  intro l
  induction l with
  | nil =>
    intro init o h
    rcases h with h | h
    · exact h
    · exact absurd h (List.not_mem_nil o)
  | cons x os ih =>
    intro init o h
    rw [List.foldl_cons]
    apply ih
    unfold dedupAdd
    rcases h with h | h
    · left
      by_cases hx : x ∈ init
      · rw [if_pos hx]; exact h
      · rw [if_neg hx]; exact List.mem_append_left _ h
    · rcases List.mem_cons.mp h with rfl | h'
      · left
        by_cases hx : o ∈ init
        · rw [if_pos hx]; exact hx
        · rw [if_neg hx]; exact List.mem_append_right _ (by simp)
      · right; exact h'

/-- A duplicate-free list counts each member exactly once. -/
lemma nodup_countP_eq_one (l : List Term) (hn : l.Nodup) (o : Term) (ho : o ∈ l) :
    l.countP (fun x => x = o) = 1 := by
  induction l with
  | nil => exact absurd ho (List.not_mem_nil o)
  | cons x os ih =>
    rw [List.countP_cons]
    rcases List.mem_cons.mp ho with rfl | h'
    · have hnx : o ∉ os := (List.nodup_cons.mp hn).1
      have : os.countP (fun y => y = o) = 0 := by
        rw [List.countP_eq_zero]
        intro y hy
        simp only [decide_eq_true_eq]
        intro hyx
        exact hnx (hyx ▸ hy)
      rw [this]
      simp
    · have := ih (List.nodup_cons.mp hn).2 h'
      rw [this]
      have hxo : ¬ x = o := by
        intro hxo
        exact (List.nodup_cons.mp hn).1 (hxo ▸ h')
      simp [hxo]

/-- A failed lookup means the key is absent. -/
lemma lookup_none_not_key (m : List (String × β)) (k : String)
    (h : List.lookup k m = none) : k ∉ m.map Prod.fst := by
  induction m with
  | nil => simp
  | cons e m' ih =>
    obtain ⟨a, b⟩ := e
    by_cases hk : k = a
    · subst hk
      rw [lookup_cons_self] at h
      exact absurd h (by simp)
    · rw [lookup_cons_ne k a _ _ hk] at h
      simp only [List.map_cons, List.mem_cons]
      rintro (h1 | h1)
      · exact hk h1
      · exact ih h h1

/-- With duplicate-free keys, every entry is found by lookup. -/
lemma lookup_some_of_mem_nodup (m : List (String × β))
    (hn : (m.map Prod.fst).Nodup) (e : String × β) (he : e ∈ m) :
    List.lookup e.1 m = some e.2 := by
  induction m with
  | nil => exact absurd he (List.not_mem_nil e)
  | cons e0 m' ih =>
    obtain ⟨a, b⟩ := e0
    rcases List.mem_cons.mp he with rfl | h'
    · exact lookup_cons_self a b m'
    · have hk : e.1 ≠ a := by
        intro hk
        have : a ∈ m'.map Prod.fst := List.mem_map.mpr ⟨e, h', hk ▸ rfl⟩
        exact (List.nodup_cons.mp (by simpa using hn)).1 this
      rw [lookup_cons_ne e.1 a _ _ hk]
      exact ih (List.nodup_cons.mp (by simpa using hn)).2 h'

/-- Well-formedness of a grouping map: duplicate-free subject keys and,
in each entry, duplicate-free predicate keys. -/
def wfSubjMap (m : SubjMap) : Prop :=
  (m.map Prod.fst).Nodup ∧ ∀ e ∈ m, (e.2.map Prod.fst).Nodup

/-- In-place updates do not change the key sequence. -/
lemma updateAssoc_keys (m : List (String × β)) (s : String) (f : β → β) :
    (updateAssoc m s f).map Prod.fst = m.map Prod.fst := by
  unfold updateAssoc
  rw [List.map_map]
  apply List.map_congr_left
  intro e he
  by_cases h : e.1 = s <;> simp [h]

/-- Entry-wise well-formedness after an in-place update of the entry at a
looked-up key. -/
lemma updateAssoc_wf_entries (m : SubjMap) (s : String) (g : PropMap → PropMap)
    (hkeys : (m.map Prod.fst).Nodup)
    (hprops : ∀ e ∈ m, (e.2.map Prod.fst).Nodup)
    (props : PropMap) (hm : List.lookup s m = some props)
    (hg : ((g props).map Prod.fst).Nodup) :
    ∀ e ∈ updateAssoc m s g, (e.2.map Prod.fst).Nodup := by
  intro e he
  unfold updateAssoc at he
  rw [List.mem_map] at he
  obtain ⟨e0, he0, heq⟩ := he
  by_cases h : e0.1 = s
  · rw [if_pos h] at heq
    have hl := lookup_some_of_mem_nodup m hkeys e0 he0
    rw [h, hm] at hl
    have he02 : props = e0.2 := by
      injection hl
    rw [← heq]
    simp only
    rw [← he02]
    exact hg
  · rw [if_neg h] at heq
    rw [← heq]
    exact hprops e0 he0

/-- A successful lookup exhibits a matching entry. -/
lemma mem_of_lookup_some (m : List (String × β)) (k : String) (v : β)
    (h : List.lookup k m = some v) : (k, v) ∈ m := by
  induction m with
  | nil => exact absurd h (by simp)
  | cons e m' ih =>
    obtain ⟨a, b⟩ := e
    by_cases hk : k = a
    · subst hk
      rw [lookup_cons_self] at h
      have hbv : b = v := by injection h
      subst hbv
      simp
    · rw [lookup_cons_ne k a _ _ hk] at h
      exact List.mem_cons_of_mem _ (ih h)

/-- `addObject` preserves map well-formedness. -/
lemma addObject_wf (m : SubjMap) (s p : String) (o : Term) (hwf : wfSubjMap m) :
    wfSubjMap (addObject m s p o) := by
  obtain ⟨hkeys, hprops⟩ := hwf
  cases hm : List.lookup s m with
  | none =>
    rw [addObject_eq_append m s p o hm]
    constructor
    · rw [List.map_append, List.nodup_append]
      refine ⟨hkeys, by simp, ?_⟩
      intro a ha hb
      have hb' : a = s := by simpa using hb
      subst hb'
      exact lookup_none_not_key m a hm ha
    · intro e he
      rcases List.mem_append.mp he with h | h
      · exact hprops e h
      · have he' : e = (s, [(p, [o])]) := by simpa using h
        rw [he']
        simp
  | some props =>
    have hpn : (props.map Prod.fst).Nodup :=
      hprops (s, props) (mem_of_lookup_some m s props hm)
    cases hp : List.lookup p props with
    | none =>
      rw [addObject_eq_newPred m s p o props hm hp]
      constructor
      · rw [updateAssoc_keys]
        exact hkeys
      · apply updateAssoc_wf_entries m s _ hkeys hprops props hm
        rw [List.map_append, List.nodup_append]
        refine ⟨hpn, by simp, ?_⟩
        intro a ha hb
        have hb' : a = p := by simpa using hb
        subst hb'
        exact lookup_none_not_key props a hp ha
    | some objs =>
      by_cases ho : o ∈ objs
      · rw [addObject_eq_dup m s p o props objs hm hp ho]
        exact ⟨hkeys, hprops⟩
      · rw [addObject_eq_push m s p o props objs hm hp ho]
        constructor
        · rw [updateAssoc_keys]
          exact hkeys
        · apply updateAssoc_wf_entries m s _ hkeys hprops props hm
          rw [updateAssoc_keys]
          exact hpn

/-- The grouping fold produces well-formed maps. -/
lemma groupResource_wf (resource : List Quad) :
    wfSubjMap (groupResource resource).1 ∧ wfSubjMap (groupResource resource).2 := by
  unfold groupResource
  have main : ∀ (l : List Quad) (maps : SubjMap × SubjMap),
      wfSubjMap maps.1 → wfSubjMap maps.2 →
      wfSubjMap (l.foldl groupStep maps).1 ∧ wfSubjMap (l.foldl groupStep maps).2 := by
    intro l
    induction l with
    | nil => intro maps h1 h2; exact ⟨h1, h2⟩
    | cons q rest ih =>
      intro maps h1 h2
      rw [List.foldl_cons]
      unfold groupStep
      by_cases hb : q.subject.isBlank
      · rw [if_pos hb]
        exact ih _ h1 (addObject_wf _ _ _ _ h2)
      · rw [if_neg hb]
        exact ih _ (addObject_wf _ _ _ _ h1) h2
  exact main resource ([], []) ⟨by simp, by simp⟩ ⟨by simp, by simp⟩

/-- Entries produced for a blank object are all anonymous-node arguments. -/
lemma emitObject_blank_anon (blank : SubjMap) (o : Term) (es : List EmitObj)
    (hb : o.isBlank = true) (h : emitObject blank o = some es) :
    ∀ e ∈ es, ∃ bp bo, e = EmitObj.anon bp bo := by
  unfold emitObject at h
  rw [if_pos hb] at h
  cases hl : List.lookup o.id blank with
  | none => rw [hl] at h; exact absurd h (by simp)
  | some props =>
    rw [hl] at h
    have hes : es = (props.map (fun pr => pr.2.map (EmitObj.anon pr.1))).flatten := by
      injection h.symm
    intro e he
    rw [hes, List.mem_flatten] at he
    obtain ⟨l, hl', hel⟩ := he
    rw [List.mem_map] at hl'
    obtain ⟨pr, hpr, rfl⟩ := hl'
    rw [List.mem_map] at hel
    obtain ⟨bo, hbo, rfl⟩ := hel
    exact ⟨pr.1, bo, rfl⟩

/-- All writer calls produced for a subject+predicate pair carry that
subject and predicate. -/
lemma emitObjs_components (blank : SubjMap) (s p : String) :
    ∀ (objs : List Term) (out : List (String × String × EmitObj)),
      emitObjs blank s p objs = some out → ∀ x ∈ out, x.1 = s ∧ x.2.1 = p := by
  intro objs
  induction objs with
  | nil =>
    intro out h x hx
    simp only [emitObjs, Option.some.injEq] at h
    rw [← h] at hx
    exact absurd hx (List.not_mem_nil x)
  | cons o os ih =>
    intro out h x hx
    simp only [emitObjs] at h
    cases hes : emitObject blank o with
    | none => rw [hes] at h; exact absurd h (by simp)
    | some es =>
      rw [hes] at h
      cases htl : emitObjs blank s p os with
      | none => rw [htl] at h; exact absurd h (by simp)
      | some tail =>
        rw [htl] at h
        simp only [Option.some.injEq] at h
        rw [← h] at hx
        rcases List.mem_append.mp hx with hx' | hx'
        · rw [List.mem_map] at hx'
          obtain ⟨e, he, rfl⟩ := hx'
          exact ⟨rfl, rfl⟩
        · exact ih tail htl x hx'

/-- All writer calls produced for a subject carry that subject, and a
predicate appearing among its grouped predicates. -/
lemma emitProps_components (blank : SubjMap) (s : String) :
    ∀ (props : PropMap) (out : List (String × String × EmitObj)),
      emitProps blank s props = some out →
      ∀ x ∈ out, x.1 = s ∧ x.2.1 ∈ props.map Prod.fst := by
  intro props
  induction props with
  | nil =>
    intro out h x hx
    simp only [emitProps, Option.some.injEq] at h
    rw [← h] at hx
    exact absurd hx (List.not_mem_nil x)
  | cons pr rest ih =>
    intro out h x hx
    simp only [emitProps] at h
    cases ha : emitObjs blank s pr.1 pr.2 with
    | none => rw [ha] at h; exact absurd h (by simp)
    | some a =>
      rw [ha] at h
      cases hb : emitProps blank s rest with
      | none => rw [hb] at h; exact absurd h (by simp)
      | some b =>
        rw [hb] at h
        simp only [Option.some.injEq] at h
        rw [← h] at hx
        rcases List.mem_append.mp hx with hx' | hx'
        · obtain ⟨h1, h2⟩ := emitObjs_components blank s pr.1 pr.2 a ha x hx'
          exact ⟨h1, by rw [h2]; simp⟩
        · obtain ⟨h1, h2⟩ := ih b hb x hx'
          exact ⟨h1, by simp [h2]⟩

/-- All writer calls carry a subject appearing among the named keys. -/
lemma emitNamed_components (blank : SubjMap) :
    ∀ (m : SubjMap) (out : List (String × String × EmitObj)),
      emitNamed blank m = some out → ∀ x ∈ out, x.1 ∈ m.map Prod.fst := by
  intro m
  induction m with
  | nil =>
    intro out h x hx
    simp only [emitNamed, Option.some.injEq] at h
    rw [← h] at hx
    exact absurd hx (List.not_mem_nil x)
  | cons e rest ih =>
    intro out h x hx
    simp only [emitNamed] at h
    cases ha : emitProps blank e.1 e.2 with
    | none => rw [ha] at h; exact absurd h (by simp)
    | some a =>
      rw [ha] at h
      cases hb : emitNamed blank rest with
      | none => rw [hb] at h; exact absurd h (by simp)
      | some b =>
        rw [hb] at h
        simp only [Option.some.injEq] at h
        rw [← h] at hx
        rcases List.mem_append.mp hx with hx' | hx'
        · have := (emitProps_components blank e.1 e.2 a ha x hx').1
          rw [this]
          simp
        · simp [ih b hb x hx']

/-- Counting a plain (non-blank-object) writer call over the objects of one
subject+predicate pair: each recorded object contributes exactly its own
occurrences. -/
lemma emitObjs_countP (blank : SubjMap) (s p : String) (o : Term)
    (ho : o.isBlank = false) :
    ∀ (objs : List Term) (out : List (String × String × EmitObj)),
      emitObjs blank s p objs = some out →
      out.countP (fun x => x = (s, p, EmitObj.plain o))
        = objs.countP (fun x => x = o) := by
  intro objs
  induction objs with
  | nil =>
    intro out h
    simp only [emitObjs, Option.some.injEq] at h
    rw [← h]
    rfl
  | cons o' os ih =>
    intro out h
    simp only [emitObjs] at h
    cases hes : emitObject blank o' with
    | none => rw [hes] at h; exact absurd h (by simp)
    | some es =>
      rw [hes] at h
      cases htl : emitObjs blank s p os with
      | none => rw [htl] at h; exact absurd h (by simp)
      | some tail =>
        rw [htl] at h
        simp only [Option.some.injEq] at h
        rw [← h, List.countP_append, List.countP_cons, ih tail htl]
        have hfront : (es.map (fun e => (s, p, e))).countP
            (fun x => x = (s, p, EmitObj.plain o)) = if o' = o then 1 else 0 := by
          cases hb' : o'.isBlank with
          | false =>
            have hes' : es = [EmitObj.plain o'] := by
              unfold emitObject at hes
              rw [if_neg (by rw [hb']; exact Bool.false_ne_true)] at hes
              injection hes.symm
            rw [hes']
            simp only [List.map_cons, List.map_nil, List.countP_cons, List.countP_nil]
            by_cases hoo : o' = o
            · subst hoo
              simp
            · have : ¬ ((s, p, EmitObj.plain o') = (s, p, EmitObj.plain o)) := by
                intro hcon
                apply hoo
                have := congrArg (fun t => t.2.2) hcon
                simpa using this
              simp [this, hoo]
          | true =>
            have hanon := emitObject_blank_anon blank o' es hb' hes
            have hzero : (es.map (fun e => (s, p, e))).countP
                (fun x => x = (s, p, EmitObj.plain o)) = 0 := by
              rw [List.countP_eq_zero]
              intro x hx
              rw [List.mem_map] at hx
              obtain ⟨e, he, rfl⟩ := hx
              obtain ⟨bp, bo, rfl⟩ := hanon e he
              simp
            rw [hzero]
            have hoo : ¬ o' = o := by
              intro hcon
              rw [hcon, ho] at hb'
              exact Bool.false_ne_true hb'
            simp [hoo]
        rw [hfront]
        by_cases hoo : o' = o
        · simp [hoo]
          omega
        · simp [hoo]

/-- Counting a plain writer call over one subject's predicate grouping
(duplicate-free predicate keys): only the group at the call's predicate
contributes. -/
lemma emitProps_countP (blank : SubjMap) (s p : String) (o : Term)
    (ho : o.isBlank = false) :
    ∀ (props : PropMap) (out : List (String × String × EmitObj)),
      (props.map Prod.fst).Nodup →
      emitProps blank s props = some out →
      out.countP (fun x => x = (s, p, EmitObj.plain o))
        = match List.lookup p props with
          | none => 0
          | some objs => objs.countP (fun x => x = o) := by
  intro props
  induction props with
  | nil =>
    intro out _ h
    simp only [emitProps, Option.some.injEq] at h
    rw [← h]
    rfl
  | cons pr rest ih =>
    intro out hn h
    obtain ⟨p', objs'⟩ := pr
    simp only [emitProps] at h
    cases ha : emitObjs blank s p' objs' with
    | none => rw [ha] at h; exact absurd h (by simp)
    | some a =>
      rw [ha] at h
      cases hb : emitProps blank s rest with
      | none => rw [hb] at h; exact absurd h (by simp)
      | some b =>
        rw [hb] at h
        simp only [Option.some.injEq] at h
        rw [← h, List.countP_append]
        have hn' : (p' :: rest.map Prod.fst).Nodup := by simpa using hn
        by_cases hp' : p' = p
        · subst hp'
          rw [lookup_cons_self]
          have hfirst := emitObjs_countP blank s p' o ho objs' a ha
          have hrest : b.countP (fun x => x = (s, p', EmitObj.plain o)) = 0 := by
            rw [List.countP_eq_zero]
            intro x hx
            simp only [decide_eq_true_eq]
            intro hcon
            have hxp := (emitProps_components blank s rest b hb x hx).2
            rw [hcon] at hxp
            simp only at hxp
            exact (List.nodup_cons.mp hn').1 hxp
          rw [hfirst, hrest]
          simp
        · rw [lookup_cons_ne p p' _ _ (fun hc => hp' hc.symm)]
          have hfirst : a.countP (fun x => x = (s, p, EmitObj.plain o)) = 0 := by
            rw [List.countP_eq_zero]
            intro x hx
            simp only [decide_eq_true_eq]
            intro hcon
            have hxp := (emitObjs_components blank s p' objs' a ha x hx).2
            rw [hcon] at hxp
            simp only at hxp
            exact hp' hxp.symm
          have hrest := ih b (List.nodup_cons.mp hn').2 hb
          rw [hfirst, hrest]
          simp

/-- Counting a plain writer call over the whole named grouping
(well-formed): only the group at the call's subject and predicate
contributes. -/
lemma emitNamed_countP (blank : SubjMap) (s p : String) (o : Term)
    (ho : o.isBlank = false) :
    ∀ (m : SubjMap) (out : List (String × String × EmitObj)),
      wfSubjMap m →
      emitNamed blank m = some out →
      out.countP (fun x => x = (s, p, EmitObj.plain o))
        = match List.lookup s m with
          | none => 0
          | some props =>
            match List.lookup p props with
            | none => 0
            | some objs => objs.countP (fun x => x = o) := by
  intro m
  induction m with
  | nil =>
    intro out _ h
    simp only [emitNamed, Option.some.injEq] at h
    rw [← h]
    rfl
  | cons e rest ih =>
    intro out hwf h
    obtain ⟨s', props'⟩ := e
    simp only [emitNamed] at h
    cases ha : emitProps blank s' props' with
    | none => rw [ha] at h; exact absurd h (by simp)
    | some a =>
      rw [ha] at h
      cases hb : emitNamed blank rest with
      | none => rw [hb] at h; exact absurd h (by simp)
      | some b =>
        rw [hb] at h
        simp only [Option.some.injEq] at h
        rw [← h, List.countP_append]
        obtain ⟨hkeys, hprops⟩ := hwf
        have hkeys' : (s' :: rest.map Prod.fst).Nodup := by simpa using hkeys
        by_cases hs' : s' = s
        · subst hs'
          rw [lookup_cons_self]
          have hpn : (props'.map Prod.fst).Nodup := by
            have := hprops (s', props') (by simp)
            simpa using this
          have hfirst : a.countP (fun x => x = (s', p, EmitObj.plain o))
              = match List.lookup p props' with
                | none => 0
                | some objs => objs.countP (fun x => x = o) :=
            emitProps_countP blank s' p o ho props' a hpn ha
          have hrest : b.countP (fun x => x = (s', p, EmitObj.plain o)) = 0 := by
            rw [List.countP_eq_zero]
            intro x hx
            simp only [decide_eq_true_eq]
            intro hcon
            have hxs := emitNamed_components blank rest b hb x hx
            rw [hcon] at hxs
            simp only at hxs
            exact (List.nodup_cons.mp hkeys').1 hxs
          rw [hfirst, hrest]
          simp
        · rw [lookup_cons_ne s s' _ _ (fun hc => hs' hc.symm)]
          have hfirst : a.countP (fun x => x = (s, p, EmitObj.plain o)) = 0 := by
            rw [List.countP_eq_zero]
            intro x hx
            simp only [decide_eq_true_eq]
            intro hcon
            have hxs := (emitProps_components blank s' props' a ha x hx).1
            rw [hcon] at hxs
            simp only at hxs
            exact hs' hxs.symm
          have hrest := ih b ⟨(List.nodup_cons.mp hkeys').2,
            fun e he => hprops e (List.mem_cons_of_mem _ he)⟩ hb
          rw [hfirst, hrest]
          simp

/-- C9: within each subject's predicate group the serializer never records
two structurally equal objects (both for named and for blank subjects), and
consequently a triple with non-blank subject and object — however often it
occurs in the resource — is written exactly once in the output. -/
theorem c9_serializer_dedup (resource : List Quad) :
    (∀ s p, (objectsOf (groupResource resource).1 s p).Nodup ∧
        (objectsOf (groupResource resource).2 s p).Nodup) ∧
    (∀ q ∈ resource, q.subject.isBlank = false → q.object.isBlank = false →
      ∀ out, resourceToOptimisedTurtle resource = some out →
        out.countP (fun x => x = (q.subject.id, q.predicate.id, EmitObj.plain q.object)) = 1) := by
  have hgr : groupResource resource = resource.foldl groupStep ([], []) := rfl
  constructor
  · intro s p
    obtain ⟨h1, h2⟩ := foldl_groupStep_objectsOf resource ([], []) s p
    rw [hgr]
    constructor
    · rw [h1]
      apply dedupAdd_foldl_nodup
      simp [objectsOf]
    · rw [h2]
      apply dedupAdd_foldl_nodup
      simp [objectsOf]
  · intro q hq hsb hob out hout
    obtain ⟨h1, -⟩ := foldl_groupStep_objectsOf resource ([], []) q.subject.id q.predicate.id
    have hinit : objectsOf (([], []) : SubjMap × SubjMap).1 q.subject.id q.predicate.id = [] := by
      simp [objectsOf]
    have hobj_char : objectsOf (groupResource resource).1 q.subject.id q.predicate.id
        = ((resource.filter (fun x => !x.subject.isBlank && x.subject.id == q.subject.id
              && x.predicate.id == q.predicate.id)).map (fun x => x.object)).foldl dedupAdd [] := by
      rw [hgr, h1, hinit]
    have hmem : q.object ∈ objectsOf (groupResource resource).1 q.subject.id q.predicate.id := by
      rw [hobj_char]
      apply dedupAdd_foldl_mem
      right
      apply List.mem_map.mpr
      refine ⟨q, ?_, rfl⟩
      rw [List.mem_filter]
      exact ⟨hq, by simp [hsb]⟩
    have hnodup : (objectsOf (groupResource resource).1 q.subject.id q.predicate.id).Nodup := by
      rw [hobj_char]
      exact dedupAdd_foldl_nodup _ _ (by simp)
    obtain ⟨hwf1, -⟩ := groupResource_wf resource
    unfold resourceToOptimisedTurtle at hout
    have hcount := emitNamed_countP (groupResource resource).2 q.subject.id q.predicate.id
      q.object hob (groupResource resource).1 out hwf1 hout
    cases hs : List.lookup q.subject.id (groupResource resource).1 with
    | none =>
      exfalso
      have hempty : objectsOf (groupResource resource).1 q.subject.id q.predicate.id = [] := by
        simp only [objectsOf, hs]
      rw [hempty] at hmem
      exact List.not_mem_nil _ hmem
    | some props =>
      cases hp : List.lookup q.predicate.id props with
      | none =>
        exfalso
        have hempty : objectsOf (groupResource resource).1 q.subject.id q.predicate.id = [] := by
          simp only [objectsOf, hs, hp]
        rw [hempty] at hmem
        exact List.not_mem_nil _ hmem
      | some objs =>
        have hobjs : objectsOf (groupResource resource).1 q.subject.id q.predicate.id = objs := by
          simp only [objectsOf, hs, hp]
        simp only [hs, hp] at hcount
        rw [hcount]
        have := nodup_countP_eq_one _ hnodup q.object hmem
        rw [hobjs] at this
        exact this

/-- Witness for C9 at a concrete input: a resource holding the same triple
twice serializes to a single writer call. -/
theorem c9_serializer_dedup_witness :
    resourceToOptimisedTurtle
      [⟨Term.named "urn:s", Term.named "urn:p", Term.named "urn:o"⟩,
       ⟨Term.named "urn:s", Term.named "urn:p", Term.named "urn:o"⟩]
      = some [("urn:s", "urn:p", EmitObj.plain (Term.named "urn:o"))] ∧
    ([("urn:s", "urn:p", EmitObj.plain (Term.named "urn:o"))] :
        List (String × String × EmitObj)).countP
      (fun x => x = ((Term.named "urn:s").id, (Term.named "urn:p").id,
        EmitObj.plain (Term.named "urn:o"))) = 1 :=
  ⟨by decide,
    (c9_serializer_dedup
      [⟨Term.named "urn:s", Term.named "urn:p", Term.named "urn:o"⟩,
       ⟨Term.named "urn:s", Term.named "urn:p", Term.named "urn:o"⟩]).2
      ⟨Term.named "urn:s", Term.named "urn:p", Term.named "urn:o"⟩
      (by decide) (by decide) (by decide)
      [("urn:s", "urn:p", EmitObj.plain (Term.named "urn:o"))] (by decide)⟩

/-! ## `generateShape` (C8)

`generateShape(resource, eventStreamURL)` first walks the type-assertion
quads of a deduplicating `Store` built from the resource, minting one
`sh:NodeShape` with an `sh:targetClass` edge per type quad and recording the
subject-to-shape-node mapping (later quads overwrite earlier ones for the
same subject).  It then walks the raw resource: every non-type quad whose
subject has a recorded shape node yields a property-constraint block whose
`sh:maxCount` is the number of store objects matching the quad's exact
subject and predicate.  The helper `extractValue` models the regular
expression used to derive local names; a non-matching IRI makes the
TypeScript throw, modelled by `none`. -/

/-- The `rdf:type` predicate IRI. -/
def rdfTypeIRI : String := "http://www.w3.org/1999/02/22-rdf-syntax-ns#type"

/-- The SHACL namespace. -/
def shIRI : String := "http://www.w3.org/ns/shacl#"

/-- The `xsd:integer` datatype IRI (`DataFactory.literal` with a number). -/
def xsdIntegerIRI : String := "http://www.w3.org/2001/XMLSchema#integer"

/-- Characters accepted by the capture group of the extraction pattern. -/
def extractClassChar (ch : Char) : Bool :=
  ch.isAlpha || ch.isDigit || ch == '_' || ch == '-'

/-- Separator characters of the extraction pattern. -/
def isSepChar (ch : Char) : Bool := ch == '/' || ch == '#'

/-- Model of `extractValue`: the regular expression match
`.+[\/#]([a-zA-Z0-9_\-]*)$` succeeds exactly when the last `/` or `#` is
preceded by at least one character and followed only by word characters;
the captured suffix is returned (`none` models the thrown TypeError). -/
def extractValue (s : String) : Option String :=
  let rev := s.toList.reverse
  let suffix := rev.takeWhile (fun c => !(isSepChar c))
  let rest := rev.dropWhile (fun c => !(isSepChar c))
  if 2 ≤ rest.length ∧ suffix.all extractClassChar then
    some (String.mk suffix.reverse)
  else none

/-- The `nodeKinds` table, keyed by the object's term type. -/
def nodeKindName : Term → String
  | Term.literal _ _ => shIRI ++ "Literal"
  | Term.termVar _ => shIRI ++ "Literal"
  | Term.blankNode _ => shIRI ++ "BlankNodeOrIRI"
  | Term.named _ => shIRI ++ "IRI"

/-- First pass of `generateShape`: one `sh:NodeShape` declaration and one
`sh:targetClass` edge per type-assertion quad of the store. -/
def shapePass1 (url : String) : List Quad → Option (List Quad)
  | [] => some []
  | q :: rest =>
    match extractValue q.object.value, shapePass1 url rest with
    | some v, some tail =>
      some (⟨Term.named (url ++ v ++ "Shape"), Term.named rdfTypeIRI,
          Term.named (shIRI ++ "NodeShape")⟩ ::
        ⟨Term.named (url ++ v ++ "Shape"), Term.named (shIRI ++ "targetClass"), q.object⟩ ::
        tail)
    | _, _ => none

/-- The subject-to-shape-node map built by the first pass; later quads
shadow earlier ones for the same subject (JS `Map.set`), which the
front-biased `List.lookup` realises by putting later entries first. -/
def shapeSubjects (url : String) : List Quad → Option (List (String × Term))
  | [] => some []
  | q :: rest =>
    match extractValue q.object.value, shapeSubjects url rest with
    | some v, some tail => some (tail ++ [(q.subject.id, Term.named (url ++ v ++ "Shape"))])
    | _, _ => none

/-- The property-constraint block emitted for one non-type quad. -/
def propertyBlock (url : String) (subjNode : Term) (q : Quad) (pv : String)
    (maxCount : Nat) (objNode : Option Term) : List Quad :=
  [⟨subjNode, Term.named (shIRI ++ "property"), Term.named (url ++ pv ++ "Property")⟩,
   ⟨Term.named (url ++ pv ++ "Property"), Term.named rdfTypeIRI,
     Term.named (shIRI ++ "propertyShape")⟩,
   ⟨Term.named (url ++ pv ++ "Property"), Term.named (shIRI ++ "path"), q.predicate⟩,
   ⟨Term.named (url ++ pv ++ "Property"), Term.named (shIRI ++ "nodeKind"),
     Term.named (nodeKindName q.object)⟩,
   ⟨Term.named (url ++ pv ++ "Property"), Term.named (shIRI ++ "minCount"),
     Term.literal "1" xsdIntegerIRI⟩,
   ⟨Term.named (url ++ pv ++ "Property"), Term.named (shIRI ++ "maxCount"),
     Term.literal (toString maxCount) xsdIntegerIRI⟩]
  ++ (match objNode with
      | some node => [⟨Term.named (url ++ pv ++ "Property"), Term.named (shIRI ++ "node"), node⟩]
      | none => [])

/-- Second pass of `generateShape`, over the raw resource: type quads are
skipped, quads whose subject has no recorded shape node are skipped, and
every other quad emits its property-constraint block. -/
def shapePass2 (url : String) (subjects : List (String × Term)) (store : List Quad) :
    List Quad → Option (List Quad)
  | [] => some []
  | q :: rest =>
    if q.predicate == Term.named rdfTypeIRI then shapePass2 url subjects store rest
    else
      match List.lookup q.subject.id subjects with
      | none => shapePass2 url subjects store rest
      | some subjNode =>
        match extractValue q.predicate.value, shapePass2 url subjects store rest with
        | some pv, some tail =>
          some (propertyBlock url subjNode q pv
            ((store.filter (fun sq => sq.subject == q.subject
              && sq.predicate == q.predicate)).length)
            (List.lookup q.object.id subjects) ++ tail)
        | _, _ => none

/-- Model of `generateShape(resource, eventStreamURL)`. -/
def generateShape (resource : List Quad) (url : String) : Option (List Quad) :=
  match shapePass1 url ((resource.dedup).filter (fun q => q.predicate == Term.named rdfTypeIRI)),
      shapeSubjects url ((resource.dedup).filter (fun q => q.predicate == Term.named rdfTypeIRI)) with
  | some pass1, some subjects =>
    match shapePass2 url subjects resource.dedup resource with
    | some pass2 => some (pass1 ++ pass2)
    | none => none
  | _, _ => none

/-- The maxCount quad emitted for a source quad `q` whose predicate
extracts to `pv`. -/
def maxCountQuad (url : String) (q : Quad) (pv : String) (store : List Quad) : Quad :=
  ⟨Term.named (url ++ pv ++ "Property"), Term.named (shIRI ++ "maxCount"),
    Term.literal (toString ((store.filter (fun sq => sq.subject == q.subject
      && sq.predicate == q.predicate)).length)) xsdIntegerIRI⟩

/-- First pass: one targetClass edge per type quad, per asserted type. -/
lemma shapePass1_targetClass_count (url : String) :
    ∀ (typeQuads pass1 : List Quad), shapePass1 url typeQuads = some pass1 →
      ∀ T : Term, pass1.countP (fun q => q.predicate == Term.named (shIRI ++ "targetClass")
          && q.object == T)
        = typeQuads.countP (fun q => q.object == T) := by
  intro typeQuads
  induction typeQuads with
  | nil =>
    intro pass1 h T
    simp only [shapePass1, Option.some.injEq] at h
    rw [← h]
    rfl
  | cons q rest ih =>
    intro pass1 h T
    simp only [shapePass1] at h
    cases hv : extractValue q.object.value with
    | none => rw [hv] at h; exact absurd h (by simp)
    | some v =>
      rw [hv] at h
      cases htl : shapePass1 url rest with
      | none => rw [htl] at h; exact absurd h (by simp)
      | some tail =>
        rw [htl] at h
        simp only [Option.some.injEq] at h
        rw [← h]
        rw [List.countP_cons, List.countP_cons, List.countP_cons, ih tail htl T]
        have c1 : (Term.named rdfTypeIRI == Term.named (shIRI ++ "targetClass")) = false := by
          decide
        have c2 : (Term.named (shIRI ++ "targetClass")
            == Term.named (shIRI ++ "targetClass")) = true := by decide
        simp only [c1, c2, Bool.false_and, Bool.true_and]
        by_cases hT : q.object = T
        · simp [hT]
        · simp [hT]

/-- First-pass quads never use the maxCount predicate. -/
lemma shapePass1_no_maxCount (url : String) :
    ∀ (typeQuads pass1 : List Quad), shapePass1 url typeQuads = some pass1 →
      ∀ qs ∈ pass1, qs.predicate ≠ Term.named (shIRI ++ "maxCount") := by
  intro typeQuads
  induction typeQuads with
  | nil =>
    intro pass1 h qs hqs
    simp only [shapePass1, Option.some.injEq] at h
    rw [← h] at hqs
    exact absurd hqs (List.not_mem_nil qs)
  | cons q rest ih =>
    intro pass1 h qs hqs
    simp only [shapePass1] at h
    cases hv : extractValue q.object.value with
    | none => rw [hv] at h; exact absurd h (by simp)
    | some v =>
      rw [hv] at h
      cases htl : shapePass1 url rest with
      | none => rw [htl] at h; exact absurd h (by simp)
      | some tail =>
        rw [htl] at h
        simp only [Option.some.injEq] at h
        rw [← h] at hqs
        rcases List.mem_cons.mp hqs with rfl | hqs'
        · intro hc
          simp only at hc
          exact absurd hc (by decide)
        · rcases List.mem_cons.mp hqs' with rfl | hqs'
          · intro hc
            simp only at hc
            exact absurd hc (by decide)
          · exact ih tail htl qs hqs'

/-- In a property-constraint block, the only quad carrying the maxCount
predicate is the maxCount quad itself. -/
lemma propertyBlock_maxCount (url : String) (subjNode : Term) (q : Quad) (pv : String)
    (mc : Nat) (objNode : Option Term) :
    ∀ qs ∈ propertyBlock url subjNode q pv mc objNode,
      qs.predicate = Term.named (shIRI ++ "maxCount") →
      qs = ⟨Term.named (url ++ pv ++ "Property"), Term.named (shIRI ++ "maxCount"),
        Term.literal (toString mc) xsdIntegerIRI⟩ := by
  intro qs hqs hpred
  unfold propertyBlock at hqs
  rcases List.mem_append.mp hqs with h | h
  · rcases List.mem_cons.mp h with rfl | h
    · exact absurd hpred (by simp only; decide)
    · rcases List.mem_cons.mp h with rfl | h
      · exact absurd hpred (by simp only; decide)
      · rcases List.mem_cons.mp h with rfl | h
        · exact absurd hpred (by simp only; decide)
        · rcases List.mem_cons.mp h with rfl | h
          · exact absurd hpred (by simp only; decide)
          · rcases List.mem_cons.mp h with rfl | h
            · exact absurd hpred (by simp only; decide)
            · rcases List.mem_cons.mp h with rfl | h
              · rfl
              · exact absurd h (List.not_mem_nil qs)
  · cases objNode with
    | some node =>
      have hqs' : qs = ⟨Term.named (url ++ pv ++ "Property"),
          Term.named (shIRI ++ "node"), node⟩ := by simpa using h
      rw [hqs'] at hpred
      exact absurd hpred (by simp only; decide)
    | none => exact absurd h (by simp)

/-- In a property-constraint block, no quad carries the targetClass
predicate. -/
lemma propertyBlock_no_targetClass (url : String) (subjNode : Term) (q : Quad) (pv : String)
    (mc : Nat) (objNode : Option Term) :
    ∀ qs ∈ propertyBlock url subjNode q pv mc objNode,
      qs.predicate ≠ Term.named (shIRI ++ "targetClass") := by
  intro qs hqs
  unfold propertyBlock at hqs
  rcases List.mem_append.mp hqs with h | h
  · rcases List.mem_cons.mp h with rfl | h
    · simp only; decide
    · rcases List.mem_cons.mp h with rfl | h
      · simp only; decide
      · rcases List.mem_cons.mp h with rfl | h
        · simp only; decide
        · rcases List.mem_cons.mp h with rfl | h
          · simp only; decide
          · rcases List.mem_cons.mp h with rfl | h
            · simp only; decide
            · rcases List.mem_cons.mp h with rfl | h
              · simp only; decide
              · exact absurd h (List.not_mem_nil qs)
  · cases objNode with
    | some node =>
      have hqs' : qs = ⟨Term.named (url ++ pv ++ "Property"),
          Term.named (shIRI ++ "node"), node⟩ := by simpa using h
      rw [hqs']
      simp only
      decide
    | none => exact absurd h (by simp)

/-- Second pass: no targetClass quads, and every maxCount quad records the
matching-pair count of its originating resource quad. -/
lemma shapePass2_analysis (url : String) (subjects : List (String × Term))
    (store : List Quad) :
    ∀ (l out : List Quad), shapePass2 url subjects store l = some out →
      ∀ qs ∈ out, qs.predicate ≠ Term.named (shIRI ++ "targetClass") ∧
        (qs.predicate = Term.named (shIRI ++ "maxCount") →
          ∃ q ∈ l, q.predicate ≠ Term.named rdfTypeIRI ∧
            ∃ pv, extractValue q.predicate.value = some pv ∧
              qs = maxCountQuad url q pv store) := by
  intro l
  induction l with
  | nil =>
    intro out h qs hqs
    simp only [shapePass2, Option.some.injEq] at h
    rw [← h] at hqs
    exact absurd hqs (List.not_mem_nil qs)
  | cons q rest ih =>
    intro out h qs hqs
    simp only [shapePass2] at h
    by_cases ht : (q.predicate == Term.named rdfTypeIRI) = true
    · rw [if_pos ht] at h
      obtain ⟨h1, h2⟩ := ih out h qs hqs
      exact ⟨h1, fun hp => by
        obtain ⟨q', hq', hrest⟩ := h2 hp
        exact ⟨q', List.mem_cons_of_mem _ hq', hrest⟩⟩
    · rw [if_neg ht] at h
      cases hl : List.lookup q.subject.id subjects with
      | none =>
        rw [hl] at h
        obtain ⟨h1, h2⟩ := ih out h qs hqs
        exact ⟨h1, fun hp => by
          obtain ⟨q', hq', hrest⟩ := h2 hp
          exact ⟨q', List.mem_cons_of_mem _ hq', hrest⟩⟩
      | some subjNode =>
        rw [hl] at h
        cases hv : extractValue q.predicate.value with
        | none => rw [hv] at h; exact absurd h (by simp)
        | some pv =>
          rw [hv] at h
          cases htl : shapePass2 url subjects store rest with
          | none => rw [htl] at h; exact absurd h (by simp)
          | some tail =>
            rw [htl] at h
            simp only [Option.some.injEq] at h
            rw [← h] at hqs
            rcases List.mem_append.mp hqs with hb | hb
            · refine ⟨propertyBlock_no_targetClass url subjNode q pv _ _ qs hb, ?_⟩
              intro hp
              refine ⟨q, by simp, by simpa using ht, pv, hv, ?_⟩
              exact propertyBlock_maxCount url subjNode q pv _ _ qs hb hp
            · obtain ⟨h1, h2⟩ := ih tail htl qs hb
              exact ⟨h1, fun hp => by
                obtain ⟨q', hq', hrest⟩ := h2 hp
                exact ⟨q', List.mem_cons_of_mem _ hq', hrest⟩⟩

/-- C8 counterexample: two distinct subjects asserting the same type yield
two identical targetClass triples for the single distinct type — the shape
list gets one per type-assertion quad, not one per distinct type. -/
theorem c8_targetClass_duplicate_counterexample :
    (generateShape
      [⟨Term.named "http://e/s1", Term.named rdfTypeIRI, Term.named "http://e/T"⟩,
       ⟨Term.named "http://e/s2", Term.named rdfTypeIRI, Term.named "http://e/T"⟩]
      "http://ex/").map (fun shape => (shape.filter (fun q =>
        q.predicate == Term.named (shIRI ++ "targetClass"))).length) = some 2 ∧
    (([⟨Term.named "http://e/s1", Term.named rdfTypeIRI, Term.named "http://e/T"⟩,
       ⟨Term.named "http://e/s2", Term.named rdfTypeIRI, Term.named "http://e/T"⟩] :
        List Quad).map (fun q => q.object)).dedup.length = 1 := by
  refine ⟨by decide, by decide⟩

/-- C8 (amended): `generateShape` produces exactly one targetClass triple
per type-assertion quad of the deduplicated resource (so one per distinct
(subject, type) pair — a type asserted by several subjects yields one
identical targetClass triple per asserting subject, not one per distinct
type), and every emitted maxCount constraint equals the number of distinct
triples of the resource sharing its originating triple's exact
(subject, predicate) pair. -/
theorem c8_generateShape_counts (resource : List Quad) (url : String) (shape : List Quad)
    (h : generateShape resource url = some shape) :
    (∀ T : Term, shape.countP (fun q => q.predicate == Term.named (shIRI ++ "targetClass")
        && q.object == T)
      = (resource.dedup.filter (fun q => q.predicate == Term.named rdfTypeIRI)).countP
          (fun q => q.object == T)) ∧
    (∀ qs ∈ shape, qs.predicate = Term.named (shIRI ++ "maxCount") →
      ∃ q ∈ resource, q.predicate ≠ Term.named rdfTypeIRI ∧
        ∃ pv, extractValue q.predicate.value = some pv ∧
          qs = maxCountQuad url q pv resource.dedup) := by
  unfold generateShape at h
  cases h1 : shapePass1 url
      (resource.dedup.filter (fun q => q.predicate == Term.named rdfTypeIRI)) with
  | none =>
    simp only [h1] at h
    exact absurd h (by simp)
  | some pass1 =>
    cases h2 : shapeSubjects url
        (resource.dedup.filter (fun q => q.predicate == Term.named rdfTypeIRI)) with
    | none =>
      simp only [h1, h2] at h
      exact absurd h (by simp)
    | some subjects =>
      simp only [h1, h2] at h
      cases h3 : shapePass2 url subjects resource.dedup resource with
      | none =>
        simp only [h3] at h
        exact absurd h (by simp)
      | some pass2 =>
        simp only [h3, Option.some.injEq] at h
        rw [← h]
        constructor
        · intro T
          rw [List.countP_append]
          have hp2 : pass2.countP (fun q => q.predicate == Term.named (shIRI ++ "targetClass")
              && q.object == T) = 0 := by
            rw [List.countP_eq_zero]
            intro qs hqs
            have := (shapePass2_analysis url subjects resource.dedup resource pass2 h3 qs hqs).1
            simp only [Bool.and_eq_true, beq_iff_eq]
            intro hcon
            exact this hcon.1
          rw [hp2, shapePass1_targetClass_count url _ pass1 h1 T]
          simp
        · intro qs hqs hpred
          rcases List.mem_append.mp hqs with hq | hq
          · exact absurd hpred (shapePass1_no_maxCount url _ pass1 h1 qs hq)
          · exact (shapePass2_analysis url subjects resource.dedup resource pass2 h3 qs hq).2 hpred

/-- Witness for C8 at a concrete input: one typed subject with one further
property. -/
theorem c8_generateShape_counts_witness :
    generateShape
      [⟨Term.named "http://e/s", Term.named rdfTypeIRI, Term.named "http://e/T"⟩,
       ⟨Term.named "http://e/s", Term.named "http://e/p", Term.named "http://e/o"⟩]
      "http://ex/"
      = some ((generateShape
        [⟨Term.named "http://e/s", Term.named rdfTypeIRI, Term.named "http://e/T"⟩,
         ⟨Term.named "http://e/s", Term.named "http://e/p", Term.named "http://e/o"⟩]
        "http://ex/").getD []) ∧
    ((generateShape
        [⟨Term.named "http://e/s", Term.named rdfTypeIRI, Term.named "http://e/T"⟩,
         ⟨Term.named "http://e/s", Term.named "http://e/p", Term.named "http://e/o"⟩]
        "http://ex/").getD []).countP
      (fun q => q.predicate == Term.named (shIRI ++ "targetClass")
        && q.object == Term.named "http://e/T")
      = (([⟨Term.named "http://e/s", Term.named rdfTypeIRI, Term.named "http://e/T"⟩,
          ⟨Term.named "http://e/s", Term.named "http://e/p", Term.named "http://e/o"⟩] :
          List Quad).dedup.filter (fun q => q.predicate == Term.named rdfTypeIRI)).countP
          (fun q => q.object == Term.named "http://e/T") :=
  ⟨by decide,
    (c8_generateShape_counts
      [⟨Term.named "http://e/s", Term.named rdfTypeIRI, Term.named "http://e/T"⟩,
       ⟨Term.named "http://e/s", Term.named "http://e/p", Term.named "http://e/o"⟩]
      "http://ex/" _ (by decide)).1 (Term.named "http://e/T")⟩
